import Mathlib

/-!
Shallow embedding of the dithering core of the `dithers` repository
(`src/palette.rs`, `src/dither.rs`).

Modeling conventions:
* The pixel buffer (`&mut [u8]`) is a `List Nat` of 8-bit samples; in-place
  mutation becomes explicit state passing.
* Rust panics (out-of-bounds indexing) are modeled by `Option`: `none` means
  the call panics.
* All distance computations in `map_to_palette` involve only integers below
  `2^24`, where `f32` arithmetic is exact, so distances are modeled as `Int`.
  Quantization errors are integer-valued `f32`s in `[-255,255]`, modeled as
  `Int`.
* The kernel weight and threshold constants are kept as the exact rationals
  written in the source (`7.0/16.0` as `7/16`); every `f32` arithmetic
  operation performed on them at run time — the constant itself as stored,
  each multiplication, addition, subtraction and division of the diffusion
  write-back and the Bayer perturbation — is modeled by `fround`, rounding
  the exact result to the nearest IEEE binary32 value (ties to even).  For
  the dyadic tables such as `7/16` this is the identity; for `7/48`-style
  weights it reproduces the `f32` bits, e.g. error `216` times weight `7/48`
  over byte `0` stores `31`, not the exact-arithmetic `32`.
* `f32::round` rounds half away from zero (exact on an `f32` argument); a
  float cast `as u8` of a value already clamped to `[0,255]` truncates
  toward zero.
-/

namespace Dithers

/-- A pixel buffer: flat sequence of 8-bit samples (R,G,B per pixel). -/
abbrev Buffer := List Nat

/-- `Color` from `palette.rs`: three 8-bit channels. -/
structure Color where
  r : Nat
  g : Nat
  b : Nat
deriving DecidableEq, Repr

/-- `QuantizationError` from `dither.rs`; the `f32` fields are always
integer-valued (difference of two `u8`s), modeled as `Int`. -/
structure QuantizationError where
  r : Int
  g : Int
  b : Int
deriving DecidableEq, Repr

/-- `ColorPalette` enum from `palette.rs`. -/
inductive ColorPalette where
  | Monochrome
  | COLOR8
  | COLOR16
deriving DecidableEq, Repr

/-- `DitherMethod` enum from `dither.rs`. -/
inductive DitherMethod where
  | None
  | FloydSteinberg
  | Simple2D
  | Jarvis
  | Atkinson
  | Stucki
  | Burkes
  | Sierra
  | TwoRowSierra
  | SierraLite
  | Bayer2x2
  | Bayer4x4
  | Bayer8x8
deriving DecidableEq, Repr

/-- `PALETTE_MONOCHROME` from `palette.rs`. -/
def PALETTE_MONOCHROME : List Color :=
  [⟨0x00, 0x00, 0x00⟩, ⟨0xff, 0xff, 0xff⟩]

/-- `PALETTE_8C` from `palette.rs`. -/
def PALETTE_8C : List Color :=
  [⟨0x00, 0x00, 0x00⟩, ⟨0xcc, 0x35, 0x00⟩, ⟨0x5e, 0xc8, 0x09⟩, ⟨0x1d, 0x28, 0x6f⟩,
   ⟨0x00, 0xc4, 0xff⟩, ⟨0x8e, 0x8e, 0x8e⟩, ⟨0xff, 0xe0, 0x52⟩, ⟨0xff, 0xff, 0xff⟩]

/-- `PALETTE_16C` from `palette.rs`. -/
def PALETTE_16C : List Color :=
  [⟨0x00, 0x00, 0x00⟩, ⟨0x9d, 0x9d, 0x9d⟩, ⟨0xff, 0xff, 0xff⟩, ⟨0xbe, 0x26, 0x33⟩,
   ⟨0xe0, 0x6f, 0x8b⟩, ⟨0x49, 0x3c, 0x2b⟩, ⟨0xa4, 0x64, 0x22⟩, ⟨0xeb, 0x89, 0x31⟩,
   ⟨0xf7, 0xe2, 0x6b⟩, ⟨0x2f, 0x48, 0x4e⟩, ⟨0x44, 0x89, 0x1a⟩, ⟨0xa3, 0xce, 0x27⟩,
   ⟨0x1b, 0x26, 0x32⟩, ⟨0x00, 0x57, 0x84⟩, ⟨0x31, 0xa2, 0xf2⟩, ⟨0xb2, 0xdc, 0xef⟩]

/-- Squared-distance computed in the loop body of `map_to_palette`
(`palette.rs` line 55); exact in `f32`, so an `Int`. -/
def distSq (a c : Color) : Int :=
  ((a.r : Int) - c.r) ^ 2 + ((a.g : Int) - c.g) ^ 2 + ((a.b : Int) - c.b) ^ 2

/-- The running-minimum comparison `distance < min_distance` of
`map_to_palette`; `none` models the initial `f32::INFINITY`, which every
finite distance compares below. -/
def ltMin (d : Int) : Option Int → Bool
  | none => true
  | some m => decide (d < m)

/-- The `for c in palette` loop of `map_to_palette`: running best color and
running minimal distance (`none` = `f32::INFINITY`). -/
def map_loop (orig : Color) : List Color → Color → Option Int → Color
  | [], best, _ => best
  | c :: rest, best, minD =>
    if ltMin (distSq orig c) minD then map_loop orig rest c (some (distSq orig c))
    else map_loop orig rest best minD

/-- `map_to_palette` from `palette.rs`.  `&palette[0]` panics on an empty
palette (`none` here); the loop then scans the whole palette. -/
def map_to_palette (orig : Color) (palette : List Color) :
    Option (Color × QuantizationError) :=
  match palette with
  | [] => none
  | c0 :: _ =>
    let chosen := map_loop orig palette c0 none
    some (chosen,
      ⟨(orig.r : Int) - chosen.r, (orig.g : Int) - chosen.g, (orig.b : Int) - chosen.b⟩)

/-- `FLOYD_STEINBERG` kernel constant (`dither.rs`). -/
def FLOYD_STEINBERG : List ℚ := [0, 0, 7/16, 3/16, 5/16, 1/16]

/-- `JARVIS` kernel constant (`dither.rs`). -/
def JARVIS : List ℚ :=
  [0, 0, 0, 7/48, 5/48, 3/48, 5/48, 7/48, 5/48, 3/48, 1/48, 3/48, 5/48, 3/48, 1/48]

/-- `SIMPLE2D` kernel constant (`dither.rs`). -/
def SIMPLE2D : List ℚ := [0, 1/2, 1/2, 0]

/-- `ATKINSON` kernel constant (`dither.rs`). -/
def ATKINSON : List ℚ := [0, 0, 1/8, 1/8, 1/8, 1/8, 1/8, 0, 0, 1/8, 0, 0]

/-- `STUCKI` kernel constant (`dither.rs`). -/
def STUCKI : List ℚ :=
  [0, 0, 0, 8/42, 4/42, 2/42, 4/42, 8/42, 4/42, 2/42, 1/42, 2/42, 4/42, 2/42, 1/42]

/-- `BURKES` kernel constant (`dither.rs`). -/
def BURKES : List ℚ := [0, 0, 0, 8/32, 4/32, 2/32, 4/32, 8/32, 4/32, 2/32]

/-- `SIERRA` kernel constant (`dither.rs`). -/
def SIERRA : List ℚ :=
  [0, 0, 0, 5/32, 3/32, 2/32, 4/32, 5/32, 4/32, 2/32, 0, 2/32, 3/32, 2/32, 0]

/-- `TWOROWSIERRA` kernel constant (`dither.rs`). -/
def TWOROWSIERRA : List ℚ := [0, 0, 0, 4/16, 3/16, 1/16, 2/16, 3/16, 2/16, 1/16]

/-- `SIERRALITE` kernel constant (`dither.rs`). -/
def SIERRALITE : List ℚ := [0, 0, 2/4, 1/4, 1/4, 0]

/-- `BAYER2X2` threshold matrix (`dither.rs`). -/
def BAYER2X2 : List ℚ := [0, 2/4, 3/4, 1/4]

/-- `BAYER4X4` threshold matrix (`dither.rs`). -/
def BAYER4X4 : List ℚ :=
  [0, 8/16, 2/16, 10/16, 12/16, 4/16, 14/16, 6/16,
   3/16, 11/16, 1/16, 9/16, 15/16, 7/16, 13/16, 5/16]

/-- `BAYER8X8` threshold matrix (`dither.rs`). -/
def BAYER8X8 : List ℚ :=
  [0, 32/64, 8/64, 40/64, 2/64, 34/64, 10/64, 42/64,
   48/64, 16/64, 56/64, 24/64, 50/64, 18/64, 58/64, 26/64,
   12/64, 44/64, 4/64, 36/64, 14/64, 46/64, 6/64, 38/64,
   60/64, 28/64, 52/64, 20/64, 62/64, 30/64, 54/64, 22/64,
   3/64, 35/64, 11/64, 43/64, 1/64, 33/64, 9/64, 41/64,
   51/64, 19/64, 59/64, 27/64, 49/64, 17/64, 57/64, 25/64,
   15/64, 47/64, 7/64, 39/64, 13/64, 45/64, 5/64, 37/64,
   63/64, 31/64, 55/64, 23/64, 61/64, 29/64, 53/64, 21/64]

/-- The kernel-selection `match` at the head of `apply_error_diffusion`:
`(kernel, kernel_width, kernel_height, kernel_x_offset)`; `none` is the
`_ => return` arm. -/
def kernelParams : DitherMethod → Option (List ℚ × Nat × Nat × Nat)
  | .FloydSteinberg => some (FLOYD_STEINBERG, 3, 2, 1)
  | .Simple2D => some (SIMPLE2D, 2, 2, 0)
  | .Jarvis => some (JARVIS, 5, 3, 2)
  | .Atkinson => some (ATKINSON, 4, 3, 1)
  | .Stucki => some (STUCKI, 5, 3, 2)
  | .Burkes => some (BURKES, 5, 2, 2)
  | .Sierra => some (SIERRA, 5, 3, 2)
  | .TwoRowSierra => some (TWOROWSIERRA, 5, 2, 2)
  | .SierraLite => some (SIERRALITE, 3, 2, 1)
  | _ => none

/-- The matrix-selection `match` at the head of `apply_bayer_dithering`. -/
def bayerParams : DitherMethod → Option (List ℚ × Nat)
  | .Bayer2x2 => some (BAYER2X2, 2)
  | .Bayer4x4 => some (BAYER4X4, 4)
  | .Bayer8x8 => some (BAYER8X8, 8)
  | _ => none

/-- The palette-selection `match` at the head of `dither`. -/
def paletteSlice : ColorPalette → List Color
  | .Monochrome => PALETTE_MONOCHROME
  | .COLOR8 => PALETTE_8C
  | .COLOR16 => PALETTE_16C

/-- `Color::from(&buffer[i..i+3])`: the slice panics (`none`) when
`i+3 > buffer.len()`. -/
def readColor (buf : Buffer) (i : Nat) : Option Color :=
  match buf[i]?, buf[i+1]?, buf[i+2]? with
  | some r, some g, some bv => some ⟨r, g, bv⟩
  | _, _, _ => none

/-- The three stores `buffer[i..i+2] = new_color` (always preceded in the
source by an in-bounds read of the same indices, so `List.set` never
silently drops a write there). -/
def writeColor (buf : Buffer) (i : Nat) (c : Color) : Buffer :=
  ((buf.set i c.r).set (i+1) c.g).set (i+2) c.b

/-- Binary length of a natural number, by structural recursion on a fuel
bound (64 bits covers every quantity the engine reaches). -/
def bitLen : Nat → Nat → Nat
  | 0, _ => 0
  | _ + 1, 0 => 0
  | fuel + 1, n + 1 => bitLen fuel ((n + 1) / 2) + 1

/-- Round `n / d` (with `d ≠ 0`) to the nearest natural number, ties to
even — the IEEE significand rounding. -/
def rneNat (n d : Nat) : Nat :=
  let q := n / d
  let r := n % d
  if 2 * r < d then q
  else if d < 2 * r then q + 1
  else if q % 2 = 0 then q else q + 1

/-- `⌊log2 (n / d)⌋` for positive `n`, `d`. -/
def floorLog2Nat (n d : Nat) : ℤ :=
  let a : ℤ := (bitLen 64 n : ℤ) - 1
  let b : ℤ := (bitLen 64 d : ℤ) - 1
  let c := a - b
  let le : Bool :=
    if 0 ≤ c then decide (d * 2 ^ c.toNat ≤ n)
    else decide (d ≤ n * 2 ^ (-c).toNat)
  if le then c else c - 1

/-- Round an exact rational to the nearest IEEE binary32 value (round to
nearest, ties to even): the value is scaled so that its significand lies in
`[2^23, 2^24)` and the significand is rounded to an integer.  This is the
`f32` result of each arithmetic operation of the engine (whose operands and
results all lie well inside the normal range of binary32, so neither
overflow nor subnormals arise). -/
def fround (q : ℚ) : ℚ :=
  if q = 0 then 0
  else
    let n := q.num.natAbs
    let d := q.den
    let k := 23 - floorLog2Nat n d
    let mag : ℚ :=
      if 0 ≤ k then ((rneNat (n * 2 ^ k.toNat) d : ℕ) : ℚ) / ((2 ^ k.toNat : ℕ) : ℚ)
      else ((rneNat n (d * 2 ^ (-k).toNat) : ℕ) : ℚ) * ((2 ^ (-k).toNat : ℕ) : ℚ)
    if q < 0 then -mag else mag

/-- `f32::round`: round to nearest, ties away from zero. -/
def roundHalfAway (q : ℚ) : Int :=
  if 0 ≤ q then (q + 1/2).floor else -((1/2 - q).floor)

/-- `.clamp(0.0, 255.0) as u8` applied to an integral rounded value. -/
def clampByte (n : Int) : Nat := (min 255 (max 0 n)).toNat

/-- One channel update of the diffusion write-back:
`(f32::from(buffer[ni]) + qe * kernel[ki]).round().clamp(0.0, 255.0) as u8`.
`kernel[ki]` holds the `f32` rounding `fround w` of the stated fraction,
the product and the sum are each rounded to `f32`, and `round()` of an
`f32` is exact (its integer result is below `2^24`). -/
def diffuseByte (v : Nat) (err : Int) (w : ℚ) : Nat :=
  clampByte (roundHalfAway (fround ((v : ℚ) + fround ((err : ℚ) * fround w))))

/-- Read-modify-write of one sample during diffusion; the read panics
(`none`) when `idx` is out of bounds. -/
def diffuseChannel (buf : Buffer) (idx : Nat) (err : Int) (w : ℚ) : Option Buffer :=
  match buf[idx]? with
  | none => none
  | some v => some (buf.set idx (diffuseByte v err w))

/-- Body of the `ky`/`kx` kernel loop of `apply_error_diffusion` for one
cell `(kx, ky)`: weight test, current-pixel skip, bounds skip, then the
three channel write-backs. -/
def diffuseCell (kernel : List ℚ) (kw xoff width height cx cy : Nat)
    (qe : QuantizationError) (cell : Nat × Nat) (buf : Buffer) : Option Buffer :=
  match kernel[cell.2 * kw + cell.1]? with
  | none => none
  | some w =>
    if w = 0 then some buf
    else
      let nx : Int := (cx : Int) + cell.1 - xoff
      let ny : Int := (cy : Int) + cell.2
      if nx = (cx : Int) ∧ ny = (cy : Int) then some buf
      else if nx < 0 ∨ (width : Int) ≤ nx ∨ ny < 0 ∨ (height : Int) ≤ ny then some buf
      else
        let ni := (ny.toNat * width + nx.toNat) * 3
        match diffuseChannel buf ni qe.r w with
        | none => none
        | some b1 =>
          match diffuseChannel b1 (ni+1) qe.g w with
          | none => none
          | some b2 => diffuseChannel b2 (ni+2) qe.b w

/-- Row-major enumeration `(x, y)` of a `height × width` nested `for` loop
(outer coordinate ascending, inner coordinate ascending per row); used both
for pixels (`cy`/`cx`) and kernel cells (`ky`/`kx`). -/
def gridList (w : Nat) : Nat → List (Nat × Nat)
  | 0 => []
  | h + 1 => gridList w h ++ (List.range w).map (fun x => (x, h))

/-- Sequencing of per-element steps, propagating a panic. -/
def scanSteps (step : Nat × Nat → Buffer → Option Buffer) :
    List (Nat × Nat) → Buffer → Option Buffer
  | [], buf => some buf
  | p :: ps, buf =>
    match step p buf with
    | none => none
    | some buf2 => scanSteps step ps buf2

/-- Raster index of pixel `p = (x, y)`: `y * width + x`. -/
def rasterIdx (w : Nat) (p : Nat × Nat) : Nat := p.2 * w + p.1

/-- Byte index of pixel `p`: `(y * width + x) * 3`. -/
def baseIdx (w : Nat) (p : Nat × Nat) : Nat := rasterIdx w p * 3

/-- Body of the pixel loop of `apply_error_diffusion`: quantize, overwrite,
then run the kernel loop. -/
def diffusionStep (kernel : List ℚ) (kw kh xoff : Nat) (pal : List Color)
    (width height : Nat) (p : Nat × Nat) (buf : Buffer) : Option Buffer :=
  match readColor buf (baseIdx width p) with
  | none => none
  | some c =>
    match map_to_palette c pal with
    | none => none
    | some (nc, qe) =>
      scanSteps (diffuseCell kernel kw xoff width height p.1 p.2 qe)
        (gridList kw kh) (writeColor buf (baseIdx width p) nc)

/-- `apply_error_diffusion` from `dither.rs`. -/
def apply_error_diffusion (buf : Buffer) (m : DitherMethod) (pal : List Color)
    (width height : Nat) : Option Buffer :=
  match kernelParams m with
  | none => some buf
  | some (kernel, kw, kh, xoff) =>
    scanSteps (diffusionStep kernel kw kh xoff pal width height)
      (gridList width height) buf

/-- One channel of the Bayer perturbation:
`((f32::from(ch) / 255.0 + threshold - 0.5).clamp(0.0, 1.0) * 255.0) as u8`.
The division, the addition of the (`f32`-stored) threshold, the subtraction
and the final multiplication are each rounded to `f32`; the clamp is exact;
the cast truncates toward zero, and the clamped value is non-negative, so
the cast is the floor. -/
def bayerChannel (v : Nat) (t : ℚ) : Nat :=
  (fround ((max 0 (min 1 (fround (fround (fround ((v : ℚ) / 255) + fround t)
    - 1/2)))) * 255)).floor.toNat

/-- Body of the pixel loop of `apply_bayer_dithering`. -/
def bayerStep (matrix : List ℚ) (msize : Nat) (pal : List Color) (width : Nat)
    (p : Nat × Nat) (buf : Buffer) : Option Buffer :=
  match readColor buf (baseIdx width p) with
  | none => none
  | some c =>
    match matrix[(p.2 % msize) * msize + (p.1 % msize)]? with
    | none => none
    | some t =>
      match map_to_palette ⟨bayerChannel c.r t, bayerChannel c.g t, bayerChannel c.b t⟩ pal with
      | none => none
      | some (nc, _) => some (writeColor buf (baseIdx width p) nc)

/-- `apply_bayer_dithering` from `dither.rs`. -/
def apply_bayer_dithering (buf : Buffer) (m : DitherMethod) (pal : List Color)
    (width height : Nat) : Option Buffer :=
  match bayerParams m with
  | none => some buf
  | some (matrix, msize) =>
    scanSteps (bayerStep matrix msize pal width) (gridList width height) buf

/-- Body of the pixel loop of the `DitherMethod::None` arm of `dither`. -/
def noneStep (pal : List Color) (width : Nat) (p : Nat × Nat) (buf : Buffer) :
    Option Buffer :=
  match readColor buf (baseIdx width p) with
  | none => none
  | some c =>
    match map_to_palette c pal with
    | none => none
    | some (nc, _) => some (writeColor buf (baseIdx width p) nc)

/-- `dither` from `dither.rs`: resolve the palette, then dispatch on the
method. -/
def dither (buf : Buffer) (m : DitherMethod) (cp : ColorPalette)
    (width height : Nat) : Option Buffer :=
  let pal := paletteSlice cp
  match m with
  | .None => scanSteps (noneStep pal width) (gridList width height) buf
  | .Bayer2x2 | .Bayer4x4 | .Bayer8x8 => apply_bayer_dithering buf m pal width height
  | _ => apply_error_diffusion buf m pal width height

/-! ### Derived and spec-side definitions -/

/-- Every non-zero kernel weight sits at a cell that is strictly later in
raster order than the current pixel: on a lower row, or on the same row
strictly right of the x-offset column. -/
def RasterForward (kernel : List ℚ) (kw kh xoff : Nat) : Prop :=
  ∀ ky, ky < kh → ∀ kx, kx < kw → kernel.getD (ky * kw + kx) 0 ≠ 0 → 0 < ky ∨ xoff < kx

instance (kernel : List ℚ) (kw kh xoff : Nat) :
    Decidable (RasterForward kernel kw kh xoff) := by
  unfold RasterForward
  infer_instance

/-- Modelled from the claim wording of the diffusion update (spec section
4.2), amended to the code's `f32` arithmetic: for every kernel cell with
non-zero weight, the target
`(current_x + kernel_x - x_offset, current_y + kernel_y)` is updated
channel-wise to `clamp(round(value + error*weight), 0, 255)` — the weight,
product and sum in `f32` via `fround`, the rounding half away from zero —
when it lies inside `[0,width) x [0,height)`, and skipped with no effect
otherwise.  Unlike the code, there is no separate current-pixel test. -/
def specDiffuseCell (kernel : List ℚ) (kw xoff width height cx cy : Nat)
    (qe : QuantizationError) (cell : Nat × Nat) (buf : Buffer) : Option Buffer :=
  match kernel[cell.2 * kw + cell.1]? with
  | none => none
  | some w =>
    if w = 0 then some buf
    else
      let nx : Int := (cx : Int) + cell.1 - xoff
      let ny : Int := (cy : Int) + cell.2
      if nx < 0 ∨ (width : Int) ≤ nx ∨ ny < 0 ∨ (height : Int) ≤ ny then some buf
      else
        let ni := (ny.toNat * width + nx.toNat) * 3
        match diffuseChannel buf ni qe.r w with
        | none => none
        | some b1 =>
          match diffuseChannel b1 (ni+1) qe.g w with
          | none => none
          | some b2 => diffuseChannel b2 (ni+2) qe.b w

/-- Modelled from the claim wording of ordered dithering (spec section
4.3), amended to the code's `f32` arithmetic: per-pixel threshold lookup
`matrix[(y mod N)*N + (x mod N)]`, channel perturbation
`clamp01(ch/255 + t - 0.5) * 255` truncated (each arithmetic step rounded
to `f32` via `fround` inside `bayerChannel`), nearest-color mapping,
quantization error discarded. -/
def specBayerColor (matrix : List ℚ) (msize : Nat) (pal : List Color)
    (x y : Nat) (c : Color) : Option Color :=
  match matrix[(y % msize) * msize + (x % msize)]? with
  | none => none
  | some t =>
    match map_to_palette
        ⟨bayerChannel c.r t, bayerChannel c.g t, bayerChannel c.b t⟩ pal with
    | none => none
    | some (nc, _) => some nc

/-- Modelled from the spec (section 6): the stated row-major kernel weight
tables and their (width, height, x-offset) data, row by row. -/
def specKernelParams : DitherMethod → Option (List ℚ × Nat × Nat × Nat)
  | .FloydSteinberg => some ([0, 0, 7/16] ++ [3/16, 5/16, 1/16], 3, 2, 1)
  | .Simple2D => some ([0, 1/2] ++ [1/2, 0], 2, 2, 0)
  | .Jarvis => some ([0, 0, 0, 7/48, 5/48] ++ [3/48, 5/48, 7/48, 5/48, 3/48] ++
      [1/48, 3/48, 5/48, 3/48, 1/48], 5, 3, 2)
  | .Atkinson => some ([0, 0, 1/8, 1/8] ++ [1/8, 1/8, 1/8, 0] ++ [0, 1/8, 0, 0], 4, 3, 1)
  | .Stucki => some ([0, 0, 0, 8/42, 4/42] ++ [2/42, 4/42, 8/42, 4/42, 2/42] ++
      [1/42, 2/42, 4/42, 2/42, 1/42], 5, 3, 2)
  | .Burkes => some ([0, 0, 0, 8/32, 4/32] ++ [2/32, 4/32, 8/32, 4/32, 2/32], 5, 2, 2)
  | .Sierra => some ([0, 0, 0, 5/32, 3/32] ++ [2/32, 4/32, 5/32, 4/32, 2/32] ++
      [0, 2/32, 3/32, 2/32, 0], 5, 3, 2)
  | .TwoRowSierra => some ([0, 0, 0, 4/16, 3/16] ++ [1/16, 2/16, 3/16, 2/16, 1/16], 5, 2, 2)
  | .SierraLite => some ([0, 0, 2/4] ++ [1/4, 1/4, 0], 3, 2, 1)
  | _ => none

/-- Modelled from the spec (section 6): the integer Bayer recursion
`Bayer(n) = [[4B, 4B+2], [4B+3, 4B+1]]` on matrices, base `Bayer(0) = [[0]]`;
the stated threshold matrices are these numerators over 4, 16, 64. -/
def bayerRec : Nat → List (List Nat)
  | 0 => [[0]]
  | n + 1 =>
    (bayerRec n).map (fun row => row.map (fun v => 4 * v) ++ row.map (fun v => 4 * v + 2)) ++
    (bayerRec n).map (fun row => row.map (fun v => 4 * v + 3) ++ row.map (fun v => 4 * v + 1))

/-! ### Facts about the nearest-color mapper -/

theorem mem_of_getElem?' {α : Type} {l : List α} {n : Nat} {a : α}
    (h : l[n]? = some a) : a ∈ l := by
  obtain ⟨hn, rfl⟩ := List.getElem?_eq_some.mp h
  exact List.getElem_mem hn

theorem distSq_nonneg (a c : Color) : 0 ≤ distSq a c := by
  unfold distSq
  positivity

theorem distSq_self (a : Color) : distSq a a = 0 := by
  unfold distSq
  ring

theorem eq_of_distSq_nonpos {a c : Color} (h : distSq a c ≤ 0) : a = c := by
  unfold distSq at h
  have hr0 : (0 : Int) ≤ ((a.r : Int) - c.r) ^ 2 := sq_nonneg _
  have hg0 : (0 : Int) ≤ ((a.g : Int) - c.g) ^ 2 := sq_nonneg _
  have hb0 : (0 : Int) ≤ ((a.b : Int) - c.b) ^ 2 := sq_nonneg _
  have hr : ((a.r : Int) - c.r) ^ 2 = 0 := le_antisymm (by linarith) hr0
  have hg : ((a.g : Int) - c.g) ^ 2 = 0 := le_antisymm (by linarith) hg0
  have hb : ((a.b : Int) - c.b) ^ 2 = 0 := le_antisymm (by linarith) hb0
  rw [pow_eq_zero_iff (by norm_num), sub_eq_zero] at hr hg hb
  have hr' : a.r = c.r := by exact_mod_cast hr
  have hg' : a.g = c.g := by exact_mod_cast hg
  have hb' : a.b = c.b := by exact_mod_cast hb
  cases a
  cases c
  simp only [Color.mk.injEq]
  exact ⟨hr', hg', hb'⟩

/-- Behaviour of the scanning loop of `map_to_palette` once the running
minimum is the distance of the running best: the result minimizes the
distance over the remaining entries and the running best, and it is either
the running best or the first remaining entry strictly improving on
everything before it. -/
theorem map_loop_go (orig : Color) (rest : List Color) : ∀ best : Color,
    ∃ out, map_loop orig rest best (some (distSq orig best)) = out ∧
      distSq orig out ≤ distSq orig best ∧
      (∀ c ∈ rest, distSq orig out ≤ distSq orig c) ∧
      (out = best ∨ ∃ (k : Nat) (c : Color), rest[k]? = some c ∧ out = c ∧
        distSq orig out < distSq orig best ∧
        ∀ j d, j < k → rest[j]? = some d → distSq orig out < distSq orig d) := by
  induction rest with
  | nil =>
    intro best
    exact ⟨best, rfl, le_refl _, by simp, Or.inl rfl⟩
  | cons c rest ih =>
    intro best
    by_cases hlt : distSq orig c < distSq orig best
    · obtain ⟨out, heq, hle, hall, hcase⟩ := ih c
      refine ⟨out, ?_, ?_, ?_, ?_⟩
      · rw [show map_loop orig (c :: rest) best (some (distSq orig best)) =
            map_loop orig rest c (some (distSq orig c)) by simp [map_loop, ltMin, hlt]]
        exact heq
      · exact le_trans hle (le_of_lt hlt)
      · intro d hd
        rcases List.mem_cons.mp hd with h | h
        · exact h ▸ hle
        · exact hall d h
      · rcases hcase with h | ⟨k, c', hk, hout, hltb, hearly⟩
        · refine Or.inr ⟨0, c, by simp, h, ?_, ?_⟩
          · exact h ▸ hlt
          · intro j d hj
            omega
        · refine Or.inr ⟨k + 1, c', by simpa using hk, hout, lt_trans hltb hlt, ?_⟩
          intro j d hj hd
          match j with
          | 0 =>
            simp only [List.getElem?_cons_zero, Option.some.injEq] at hd
            exact hd ▸ hltb
          | j' + 1 =>
            exact hearly j' d (by omega) (by simpa using hd)
    · obtain ⟨out, heq, hle, hall, hcase⟩ := ih best
      have hge : distSq orig best ≤ distSq orig c := le_of_not_lt hlt
      refine ⟨out, ?_, hle, ?_, ?_⟩
      · rw [show map_loop orig (c :: rest) best (some (distSq orig best)) =
            map_loop orig rest best (some (distSq orig best)) by simp [map_loop, ltMin, hlt]]
        exact heq
      · intro d hd
        rcases List.mem_cons.mp hd with h | h
        · exact h ▸ le_trans hle hge
        · exact hall d h
      · rcases hcase with h | ⟨k, c', hk, hout, hltb, hearly⟩
        · exact Or.inl h
        · refine Or.inr ⟨k + 1, c', by simpa using hk, hout, hltb, ?_⟩
          intro j d hj hd
          match j with
          | 0 =>
            simp only [List.getElem?_cons_zero, Option.some.injEq] at hd
            exact hd ▸ lt_of_lt_of_le hltb hge
          | j' + 1 =>
            exact hearly j' d (by omega) (by simpa using hd)

/-- Full characterization of `map_to_palette` on a non-empty palette:
it succeeds, the chosen color sits at some index `i` of the palette, it
minimizes the squared distance, every entry at an index below `i` is
strictly farther (first-wins tie-break), and the error is the per-channel
difference `orig - chosen`. -/
theorem map_to_palette_spec (orig : Color) (pal : List Color) (hne : pal ≠ []) :
    ∃ (chosen : Color) (i : Nat),
      map_to_palette orig pal = some (chosen,
        ⟨(orig.r : Int) - chosen.r, (orig.g : Int) - chosen.g, (orig.b : Int) - chosen.b⟩) ∧
      pal[i]? = some chosen ∧
      (∀ c ∈ pal, distSq orig chosen ≤ distSq orig c) ∧
      (∀ j c, j < i → pal[j]? = some c → distSq orig chosen < distSq orig c) := by
  match pal with
  | [] => exact absurd rfl hne
  | c0 :: rest =>
    have hstep : map_loop orig (c0 :: rest) c0 none =
        map_loop orig rest c0 (some (distSq orig c0)) := by
      simp [map_loop, ltMin]
    obtain ⟨out, heq, hle, hall, hcase⟩ := map_loop_go orig rest c0
    have hchosen : map_loop orig (c0 :: rest) c0 none = out := hstep.trans heq
    rcases hcase with h | ⟨k, c', hk, hout, hltb, hearly⟩
    · refine ⟨out, 0, ?_, ?_, ?_, ?_⟩
      · simp [map_to_palette, hchosen]
      · simp [h]
      · intro c hc
        rcases List.mem_cons.mp hc with hcc | hcc
        · exact hcc ▸ hle
        · exact hall c hcc
      · intro j c hj
        omega
    · refine ⟨out, k + 1, ?_, ?_, ?_, ?_⟩
      · simp [map_to_palette, hchosen]
      · simpa [hout] using hk
      · intro c hc
        rcases List.mem_cons.mp hc with hcc | hcc
        · exact hcc ▸ hle
        · exact hall c hcc
      · intro j c hj hc
        match j with
        | 0 =>
          simp only [List.getElem?_cons_zero, Option.some.injEq] at hc
          exact hc ▸ hltb
        | j' + 1 =>
          exact hearly j' c (by omega) (by simpa using hc)

/-- The mapper succeeds exactly on non-empty palettes, and the chosen color
is a palette entry; the error is `orig - chosen` per channel. -/
theorem map_to_palette_mem {orig c : Color} {qe : QuantizationError}
    {pal : List Color} (h : map_to_palette orig pal = some (c, qe)) :
    c ∈ pal ∧ qe = ⟨(orig.r : Int) - c.r, (orig.g : Int) - c.g, (orig.b : Int) - c.b⟩ := by
  have hne : pal ≠ [] := by
    intro hnil
    rw [hnil] at h
    simp [map_to_palette] at h
  obtain ⟨chosen, i, heq, hidx, -, -⟩ := map_to_palette_spec orig pal hne
  rw [heq] at h
  obtain ⟨rfl, rfl⟩ : chosen = c ∧
      (⟨(orig.r : Int) - chosen.r, (orig.g : Int) - chosen.g, (orig.b : Int) - chosen.b⟩ :
        QuantizationError) = qe := by
    have := Option.some.inj h
    exact ⟨congrArg Prod.fst this, congrArg Prod.snd this⟩
  exact ⟨mem_of_getElem?' hidx, rfl⟩

/-- Mapping a color that is already a palette entry returns that color with
zero error (first equal entry wins; equal colors have equal channels). -/
theorem map_to_palette_self {c : Color} {pal : List Color} (hc : c ∈ pal) :
    map_to_palette c pal = some (c, ⟨0, 0, 0⟩) := by
  have hne : pal ≠ [] := List.ne_nil_of_mem hc
  obtain ⟨chosen, i, heq, hidx, hmin, -⟩ := map_to_palette_spec c pal hne
  have h0 : distSq c chosen ≤ 0 := by
    have := hmin c hc
    simpa [distSq_self] using this
  have : c = chosen := eq_of_distSq_nonpos h0
  subst this
  simpa using heq

/-- Success of the mapper on a non-empty palette, with the chosen entry a
member of the palette. -/
theorem map_to_palette_isSome (orig : Color) (pal : List Color) (hne : pal ≠ []) :
    ∃ c qe, map_to_palette orig pal = some (c, qe) ∧ c ∈ pal := by
  obtain ⟨chosen, i, heq, hidx, -, -⟩ := map_to_palette_spec orig pal hne
  exact ⟨chosen, _, heq, mem_of_getElem?' hidx⟩

/-! ### The traversal grid and the scan combinator -/

theorem mem_gridList {w h a b : Nat} :
    (a, b) ∈ gridList w h ↔ a < w ∧ b < h := by
  induction h with
  | zero => simp [gridList]
  | succ h ih =>
    simp only [gridList, List.mem_append, ih, List.mem_map, List.mem_range]
    constructor
    · rintro (⟨h1, h2⟩ | ⟨x, hx, hp⟩)
      · exact ⟨h1, Nat.lt_succ_of_lt h2⟩
      · injection hp with e1 e2
        subst e1
        subst e2
        exact ⟨hx, Nat.lt_succ_self _⟩
    · rintro ⟨h1, h2⟩
      rcases Nat.lt_succ_iff_lt_or_eq.mp h2 with h3 | rfl
      · exact Or.inl ⟨h1, h3⟩
      · exact Or.inr ⟨a, h1, rfl⟩

theorem pairwise_gridList (w h : Nat) :
    (gridList w h).Pairwise (fun p q => rasterIdx w p < rasterIdx w q) := by
  induction h with
  | zero => simp [gridList]
  | succ h ih =>
    rw [gridList]
    apply List.pairwise_append.mpr
    refine ⟨ih, ?_, ?_⟩
    · rw [List.pairwise_map]
      exact (List.pairwise_lt_range w).imp (by
        intro a b hab
        simp only [rasterIdx]
        omega)
    · intro p hp q hq
      obtain ⟨x, hx, rfl⟩ := List.mem_map.mp hq
      obtain ⟨a, b⟩ := p
      obtain ⟨h1, h2⟩ := mem_gridList.mp hp
      simp only [rasterIdx]
      have hmul : (b + 1) * w ≤ h * w := Nat.mul_le_mul_right w h2
      have hsucc : (b + 1) * w = b * w + w := Nat.succ_mul b w
      omega

theorem scanSteps_append (step : Nat × Nat → Buffer → Option Buffer)
    (l1 l2 : List (Nat × Nat)) (buf : Buffer) :
    scanSteps step (l1 ++ l2) buf =
      match scanSteps step l1 buf with
      | none => none
      | some b => scanSteps step l2 b := by
  induction l1 generalizing buf with
  | nil => simp [scanSteps]
  | cons p ps ih =>
    simp only [List.cons_append, scanSteps]
    cases step p buf with
    | none => rfl
    | some b2 => exact ih b2

theorem scanSteps_congr {f g : Nat × Nat → Buffer → Option Buffer}
    {ps : List (Nat × Nat)} (h : ∀ p ∈ ps, ∀ b, f p b = g p b) (buf : Buffer) :
    scanSteps f ps buf = scanSteps g ps buf := by
  induction ps generalizing buf with
  | nil => rfl
  | cons p ps ih =>
    simp only [scanSteps, h p (List.mem_cons_self _ _)]
    cases g p buf with
    | none => rfl
    | some b2 => exact ih (fun q hq b => h q (List.mem_cons_of_mem _ hq) b) b2

theorem scanSteps_id {step : Nat × Nat → Buffer → Option Buffer}
    {ps : List (Nat × Nat)} {buf : Buffer}
    (h : ∀ p ∈ ps, step p buf = some buf) :
    scanSteps step ps buf = some buf := by
  induction ps with
  | nil => rfl
  | cons p ps ih =>
    simp only [scanSteps, h p (List.mem_cons_self _ _)]
    exact ih (fun q hq => h q (List.mem_cons_of_mem _ hq))

/-- Scanning succeeds and preserves the buffer length when every step does. -/
theorem scanSteps_ok {step : Nat × Nat → Buffer → Option Buffer} (len : Nat) :
    ∀ (ps : List (Nat × Nat)) (buf : Buffer),
      (∀ p ∈ ps, ∀ b : Buffer, b.length = len → ∃ o, step p b = some o ∧ o.length = len) →
      buf.length = len →
      ∃ out, scanSteps step ps buf = some out ∧ out.length = len := by
  intro ps
  induction ps with
  | nil => exact fun buf _ hlen => ⟨buf, rfl, hlen⟩
  | cons p ps ih =>
    intro buf hstep hlen
    obtain ⟨b1, hb1, hb1len⟩ := hstep p (List.mem_cons_self _ _) buf hlen
    obtain ⟨out, hout, houtlen⟩ :=
      ih b1 (fun q hq => hstep q (List.mem_cons_of_mem _ hq)) hb1len
    exact ⟨out, by simp only [scanSteps, hb1]; exact hout, houtlen⟩

/-- Bytes below every visited pixel are untouched by the scan, provided each
step (on buffers of the running length) preserves the length and only
writes at or above its own pixel. -/
theorem scanSteps_stable {w len : Nat} {step : Nat × Nat → Buffer → Option Buffer} :
    ∀ {ps : List (Nat × Nat)} {buf out : Buffer},
      scanSteps step ps buf = some out → buf.length = len →
      (∀ p ∈ ps, ∀ b o, b.length = len → step p b = some o →
        o.length = len ∧ ∀ j, j < baseIdx w p → o[j]? = b[j]?) →
      ∀ j, (∀ p ∈ ps, j < baseIdx w p) → out[j]? = buf[j]? := by
  intro ps
  induction ps with
  | nil =>
    intro buf out hscan _ _ j _
    cases hscan
    rfl
  | cons p ps ih =>
    intro buf out hscan hblen hstable j hj
    cases hq : step p buf with
    | none => rw [scanSteps, hq] at hscan; cases hscan
    | some b1 =>
      rw [scanSteps, hq] at hscan
      obtain ⟨hb1len, hpres⟩ := hstable p (List.mem_cons_self _ _) buf b1 hblen hq
      have h1 : out[j]? = b1[j]? :=
        ih hscan hb1len (fun q hq' => hstable q (List.mem_cons_of_mem _ hq'))
          j (fun q hq' => hj q (List.mem_cons_of_mem _ hq'))
      exact h1.trans (hpres j (hj p (List.mem_cons_self _ _)))

/-- After a scan over raster-increasing pixels whose steps preserve the
length, only write at or above their own pixel, and leave their own pixel
holding a palette color, every visited pixel of the result holds a palette
color. -/
theorem scanSteps_palette {w : Nat} (len : Nat) {pal : List Color}
    {step : Nat × Nat → Buffer → Option Buffer} :
    ∀ {ps : List (Nat × Nat)} {buf out : Buffer},
      scanSteps step ps buf = some out → buf.length = len →
      List.Pairwise (fun p q => rasterIdx w p < rasterIdx w q) ps →
      (∀ p ∈ ps, ∀ b o, b.length = len → step p b = some o →
        o.length = len ∧ (∀ j, j < baseIdx w p → o[j]? = b[j]?) ∧
        ∃ c, c ∈ pal ∧ o[baseIdx w p]? = some c.r ∧ o[baseIdx w p + 1]? = some c.g ∧
          o[baseIdx w p + 2]? = some c.b) →
      ∀ p ∈ ps, ∃ c, c ∈ pal ∧ out[baseIdx w p]? = some c.r ∧
        out[baseIdx w p + 1]? = some c.g ∧ out[baseIdx w p + 2]? = some c.b := by
  intro ps
  induction ps with
  | nil => intro buf out _ _ _ _ p hp; cases hp
  | cons q ps ih =>
    intro buf out hscan hblen hpw hsteps p hp
    cases hq : step q buf with
    | none => rw [scanSteps, hq] at hscan; cases hscan
    | some b1 =>
      rw [scanSteps, hq] at hscan
      obtain ⟨hqfirst, hpw'⟩ := List.pairwise_cons.mp hpw
      rcases List.mem_cons.mp hp with rfl | hp'
      · obtain ⟨hb1len, -, c, hcmem, h0, h1, h2⟩ :=
          hsteps p (List.mem_cons_self _ _) buf b1 hblen hq
        have hagree : ∀ j, (∀ r ∈ ps, j < baseIdx w r) → out[j]? = b1[j]? :=
          scanSteps_stable hscan hb1len
            (fun r hr b o hbl ho =>
              ⟨(hsteps r (List.mem_cons_of_mem _ hr) b o hbl ho).1,
               (hsteps r (List.mem_cons_of_mem _ hr) b o hbl ho).2.1⟩)
        have hbelow : ∀ j, j < baseIdx w p + 3 → ∀ r ∈ ps, j < baseIdx w r := by
          intro j hjlt r hr
          have hlt := hqfirst r hr
          simp only [baseIdx] at *
          omega
        refine ⟨c, hcmem, ?_, ?_, ?_⟩
        · rw [hagree _ (hbelow _ (by omega))]; exact h0
        · rw [hagree _ (hbelow _ (by omega))]; exact h1
        · rw [hagree _ (hbelow _ (by omega))]; exact h2
      · have hb1len := (hsteps q (List.mem_cons_self _ _) buf b1 hblen hq).1
        exact ih hscan hb1len hpw'
          (fun r hr => hsteps r (List.mem_cons_of_mem _ hr)) p hp'

/-! ### Buffer read/write helper lemmas -/

theorem length_writeColor (buf : Buffer) (i : Nat) (c : Color) :
    (writeColor buf i c).length = buf.length := by
  simp [writeColor]

theorem writeColor_getElem?_ne {buf : Buffer} {i : Nat} {c : Color} {j : Nat}
    (h1 : j ≠ i) (h2 : j ≠ i + 1) (h3 : j ≠ i + 2) :
    (writeColor buf i c)[j]? = buf[j]? := by
  unfold writeColor
  rw [List.getElem?_set_ne (by omega), List.getElem?_set_ne (by omega),
    List.getElem?_set_ne (by omega)]

theorem writeColor_getElem?_self {buf : Buffer} {i : Nat} {c : Color}
    (h : i + 2 < buf.length) :
    (writeColor buf i c)[i]? = some c.r ∧ (writeColor buf i c)[i+1]? = some c.g ∧
      (writeColor buf i c)[i+2]? = some c.b := by
  unfold writeColor
  refine ⟨?_, ?_, ?_⟩
  · rw [List.getElem?_set_ne (by omega), List.getElem?_set_ne (by omega)]
    exact List.getElem?_set_eq_of_lt _ (by omega)
  · rw [List.getElem?_set_ne (by omega)]
    exact List.getElem?_set_eq_of_lt _ (by simp; omega)
  · exact List.getElem?_set_eq_of_lt _ (by simp; omega)

theorem readColor_eq_some {buf : Buffer} {i : Nat} (h : i + 2 < buf.length) :
    ∃ c : Color, readColor buf i = some c ∧
      buf[i]? = some c.r ∧ buf[i+1]? = some c.g ∧ buf[i+2]? = some c.b := by
  obtain ⟨r, hr⟩ : ∃ r, buf[i]? = some r := by
    rw [List.getElem?_eq_getElem (by omega)]
    exact ⟨_, rfl⟩
  obtain ⟨g, hg⟩ : ∃ g, buf[i+1]? = some g := by
    rw [List.getElem?_eq_getElem (by omega)]
    exact ⟨_, rfl⟩
  obtain ⟨bv, hb⟩ : ∃ bv, buf[i+2]? = some bv := by
    rw [List.getElem?_eq_getElem (by omega)]
    exact ⟨_, rfl⟩
  exact ⟨⟨r, g, bv⟩, by simp [readColor, hr, hg, hb], hr, hg, hb⟩

theorem readColor_some_elim {buf : Buffer} {i : Nat} {c : Color}
    (h : readColor buf i = some c) :
    buf[i]? = some c.r ∧ buf[i+1]? = some c.g ∧ buf[i+2]? = some c.b := by
  unfold readColor at h
  cases h0 : buf[i]? with
  | none => simp only [h0] at h; exact Option.noConfusion h
  | some r =>
    cases h1 : buf[i+1]? with
    | none => simp only [h0, h1] at h; exact Option.noConfusion h
    | some g =>
      cases h2 : buf[i+2]? with
      | none => simp only [h0, h1, h2] at h; exact Option.noConfusion h
      | some bv =>
        simp only [h0, h1, h2, Option.some.injEq] at h
        subst h
        exact ⟨rfl, rfl, rfl⟩

theorem readColor_congr {b1 b2 : Buffer} {i : Nat}
    (h0 : b2[i]? = b1[i]?) (h1 : b2[i+1]? = b1[i+1]?) (h2 : b2[i+2]? = b1[i+2]?) :
    readColor b2 i = readColor b1 i := by
  unfold readColor
  rw [h0, h1, h2]

/-! ### Index arithmetic -/

theorem cellIdx_lt {kw kh kx ky : Nat} (h1 : kx < kw) (h2 : ky < kh) :
    ky * kw + kx < kw * kh := by
  have ha : (ky + 1) * kw ≤ kh * kw := Nat.mul_le_mul_right kw (by omega)
  have hb : (ky + 1) * kw = ky * kw + kw := Nat.succ_mul _ _
  have hc : kw * kh = kh * kw := Nat.mul_comm _ _
  omega

theorem rasterIdx_lt {w hgt : Nat} {p : Nat × Nat} (h1 : p.1 < w) (h2 : p.2 < hgt) :
    rasterIdx w p < w * hgt := by
  simp only [rasterIdx]
  exact cellIdx_lt h1 h2

/-- An in-image diffusion target of a raster-forward kernel cell lies at a
raster index strictly above the current pixel and inside the image. -/
theorem target_raster_facts {w hgt cx cy kx ky xoff : Nat}
    (hcx : cx < w) (hdir : 0 < ky ∨ xoff < kx)
    (h1 : 0 ≤ (cx : Int) + kx - xoff) (h2 : (cx : Int) + kx - xoff < (w : Int))
    (h3 : (cy : Int) + ky < (hgt : Int)) :
    cy * w + cx < ((cy : Int) + ky).toNat * w + ((cx : Int) + kx - xoff).toNat ∧
      ((cy : Int) + ky).toNat * w + ((cx : Int) + kx - xoff).toNat < w * hgt := by
  have hnx : ((cx : Int) + kx - xoff).toNat < w := by omega
  have hyto : ((cy : Int) + ky).toNat = cy + ky := by omega
  have hrw : ((cy : Int) + ky).toNat * w = (cy + ky) * w := by rw [hyto]
  have hup : (cy + ky + 1) * w ≤ hgt * w := Nat.mul_le_mul_right w (by omega)
  have hsucc1 : (cy + ky + 1) * w = (cy + ky) * w + w := Nat.succ_mul _ _
  have hcomm : w * hgt = hgt * w := Nat.mul_comm _ _
  constructor
  · rcases Nat.eq_zero_or_pos ky with rfl | hky
    · have hkx : xoff < kx := by
        rcases hdir with h | h
        · omega
        · exact h
      have hnx1 : cx + 1 ≤ ((cx : Int) + kx - xoff).toNat := by omega
      have hr0 : (cy + 0) * w = cy * w := by norm_num
      omega
    · have hk1 : (cy + 1) * w ≤ (cy + ky) * w := Nat.mul_le_mul_right w (by omega)
      have hsucc2 : (cy + 1) * w = cy * w + w := Nat.succ_mul _ _
      omega
  · omega

/-! ### Kernel facts -/

/-- The kernel table resolved for each error-diffusion method has length
`kernel_width * kernel_height`, only diffuses raster-forward, and carries
weight `0` at the current-pixel cell `(x_offset, 0)`. -/
theorem kernelParams_facts {m : DitherMethod} {kernel : List ℚ} {kw kh xoff : Nat}
    (h : kernelParams m = some (kernel, kw, kh, xoff)) :
    kernel.length = kw * kh ∧ RasterForward kernel kw kh xoff ∧
      kernel.getD (0 * kw + xoff) 0 = 0 := by
  cases m <;> simp only [kernelParams] at h <;>
    first
      | exact Option.noConfusion h
      | (simp only [Option.some.injEq, Prod.mk.injEq] at h
         obtain ⟨rfl, rfl, rfl, rfl⟩ := h
         refine ⟨by decide, by with_unfolding_all decide, by with_unfolding_all decide⟩)

/-! ### Diffusion cell lemmas -/

theorem diffuseChannel_ok {b : Buffer} (idx : Nat) (h : idx < b.length)
    (err : Int) (wv : ℚ) :
    ∃ o, diffuseChannel b idx err wv = some o ∧ o.length = b.length ∧
      ∀ j, j ≠ idx → o[j]? = b[j]? := by
  obtain ⟨v, hv⟩ : ∃ v, b[idx]? = some v := by
    rw [List.getElem?_eq_getElem h]
    exact ⟨_, rfl⟩
  refine ⟨b.set idx (diffuseByte v err wv), ?_, by simp, ?_⟩
  · unfold diffuseChannel
    simp only [hv]
  · intro j hj
    exact List.getElem?_set_ne (by omega)

/-- One kernel-cell step of the diffusion loop: it succeeds on a buffer of
the right length, preserves the length, and leaves all bytes up to and
including the current pixel untouched. -/
theorem diffuseCell_ok {kernel : List ℚ} {kw kh xoff w hgt cx cy : Nat}
    {qe : QuantizationError}
    (hlen : kernel.length = kw * kh) (hfwd : RasterForward kernel kw kh xoff)
    (hcx : cx < w) {cell : Nat × Nat} (hc1 : cell.1 < kw) (hc2 : cell.2 < kh)
    (b : Buffer) (hblen : b.length = w * hgt * 3) :
    ∃ o, diffuseCell kernel kw xoff w hgt cx cy qe cell b = some o ∧
      o.length = b.length ∧ ∀ j, j < (cy * w + cx) * 3 + 3 → o[j]? = b[j]? := by
  have hki : cell.2 * kw + cell.1 < kernel.length := hlen ▸ cellIdx_lt hc1 hc2
  obtain ⟨wv, hwv⟩ : ∃ wv, kernel[cell.2 * kw + cell.1]? = some wv := by
    rw [List.getElem?_eq_getElem hki]
    exact ⟨_, rfl⟩
  unfold diffuseCell
  simp only [hwv]
  by_cases hw0 : wv = 0
  · simp only [if_pos hw0]
    exact ⟨b, rfl, rfl, fun j _ => rfl⟩
  · simp only [if_neg hw0]
    by_cases hcur : (cx : Int) + cell.1 - xoff = (cx : Int) ∧
        (cy : Int) + cell.2 = (cy : Int)
    · simp only [if_pos hcur]
      exact ⟨b, rfl, rfl, fun j _ => rfl⟩
    · simp only [if_neg hcur]
      by_cases hoob : (cx : Int) + cell.1 - xoff < 0 ∨
          (w : Int) ≤ (cx : Int) + cell.1 - xoff ∨
          (cy : Int) + cell.2 < 0 ∨ (hgt : Int) ≤ (cy : Int) + cell.2
      · simp only [if_pos hoob]
        exact ⟨b, rfl, rfl, fun j _ => rfl⟩
      · simp only [if_neg hoob]
        push_neg at hoob
        obtain ⟨ho1, ho2, ho3, ho4⟩ := hoob
        have hdir : 0 < cell.2 ∨ xoff < cell.1 := by
          apply hfwd cell.2 hc2 cell.1 hc1
          rw [List.getD_eq_getElem?_getD, hwv]
          simpa using hw0
        obtain ⟨hgtr, hltr⟩ := target_raster_facts hcx hdir ho1 ho2 ho4
        set tr := ((cy : Int) + cell.2).toNat * w + ((cx : Int) + cell.1 - xoff).toNat
          with htr
        obtain ⟨b1, hb1, hb1len, hb1pres⟩ :=
          diffuseChannel_ok (b := b) (tr * 3) (by omega) qe.r wv
        obtain ⟨b2, hb2, hb2len, hb2pres⟩ :=
          diffuseChannel_ok (b := b1) (tr * 3 + 1) (by omega) qe.g wv
        obtain ⟨b3, hb3, hb3len, hb3pres⟩ :=
          diffuseChannel_ok (b := b2) (tr * 3 + 2) (by omega) qe.b wv
        refine ⟨b3, ?_, by omega, ?_⟩
        · simp only [hb1, hb2]
          exact hb3
        · intro j hj
          rw [hb3pres j (by omega), hb2pres j (by omega), hb1pres j (by omega)]

/-- The whole kernel loop for one pixel: succeeds, preserves the length,
and leaves all bytes up to and including the current pixel untouched. -/
theorem diffuseCells_fold {kernel : List ℚ} {kw kh xoff w hgt cx : Nat}
    (cy : Nat) (qe : QuantizationError)
    (hlen : kernel.length = kw * kh) (hfwd : RasterForward kernel kw kh xoff)
    (hcx : cx < w) :
    ∀ (cells : List (Nat × Nat)), (∀ cl ∈ cells, cl.1 < kw ∧ cl.2 < kh) →
      ∀ b : Buffer, b.length = w * hgt * 3 →
      ∃ o, scanSteps (diffuseCell kernel kw xoff w hgt cx cy qe) cells b = some o ∧
        o.length = b.length ∧ ∀ j, j < (cy * w + cx) * 3 + 3 → o[j]? = b[j]? := by
  intro cells
  induction cells with
  | nil => exact fun _ b _ => ⟨b, rfl, rfl, fun j _ => rfl⟩
  | cons cl cells ih =>
    intro hmem b hblen
    obtain ⟨o1, ho1, ho1len, ho1pres⟩ :=
      diffuseCell_ok hlen hfwd hcx (hmem cl (List.mem_cons_self _ _)).1
        (hmem cl (List.mem_cons_self _ _)).2 b hblen
    obtain ⟨o, ho, holen, hopres⟩ :=
      ih (fun q hq => hmem q (List.mem_cons_of_mem _ hq)) o1 (by omega)
    refine ⟨o, ?_, by omega, ?_⟩
    · rw [scanSteps, ho1]
      exact ho
    · intro j hj
      rw [hopres j hj, ho1pres j hj]

/-! ### Per-engine step lemmas -/

theorem noneStep_elim {pal : List Color} {w : Nat} {p : Nat × Nat} {b o : Buffer}
    (h : noneStep pal w p b = some o) :
    ∃ c nc qe, readColor b (baseIdx w p) = some c ∧
      map_to_palette c pal = some (nc, qe) ∧ o = writeColor b (baseIdx w p) nc := by
  unfold noneStep at h
  cases hr : readColor b (baseIdx w p) with
  | none => simp only [hr] at h; exact Option.noConfusion h
  | some c =>
    simp only [hr] at h
    cases hm : map_to_palette c pal with
    | none => simp only [hm] at h; exact Option.noConfusion h
    | some v =>
      obtain ⟨nc, qe⟩ := v
      simp only [hm] at h
      exact ⟨c, nc, qe, rfl, hm, (Option.some.inj h).symm⟩

/-- The length bound recovered from a successful pixel read. -/
theorem bound_of_readColor {b : Buffer} {i : Nat} {c : Color}
    (h : readColor b i = some c) : i + 2 < b.length := by
  have h2 := (readColor_some_elim h).2.2
  by_contra hcon
  rw [List.getElem?_eq_none (by omega)] at h2
  exact Option.noConfusion h2

/-- Post-conditions of a successful `None`-method pixel step: length kept,
bytes below the pixel untouched, and the pixel overwritten with a palette
color. -/
theorem noneStep_post {pal : List Color} {w : Nat} {p : Nat × Nat} {b o : Buffer}
    (h : noneStep pal w p b = some o) :
    o.length = b.length ∧ (∀ j, j < baseIdx w p → o[j]? = b[j]?) ∧
      ∃ c, c ∈ pal ∧ o[baseIdx w p]? = some c.r ∧ o[baseIdx w p + 1]? = some c.g ∧
        o[baseIdx w p + 2]? = some c.b := by
  obtain ⟨c, nc, qe, hrc, hm, rfl⟩ := noneStep_elim h
  have hbound := bound_of_readColor hrc
  obtain ⟨h0, h1, h2⟩ := writeColor_getElem?_self (c := nc) hbound
  exact ⟨length_writeColor _ _ _,
    fun j hj => writeColor_getElem?_ne (by omega) (by omega) (by omega),
    nc, (map_to_palette_mem hm).1, h0, h1, h2⟩

/-- A `None`-method pixel step succeeds on a buffer covering the pixel. -/
theorem noneStep_ok {pal : List Color} {w : Nat} (hne : pal ≠ [])
    {p : Nat × Nat} {b : Buffer} (hbound : baseIdx w p + 2 < b.length) :
    ∃ o, noneStep pal w p b = some o := by
  obtain ⟨c, hrc, -, -, -⟩ := readColor_eq_some hbound
  obtain ⟨nc, qe, hm, -⟩ := map_to_palette_isSome c pal hne
  refine ⟨writeColor b (baseIdx w p) nc, ?_⟩
  unfold noneStep
  simp only [hrc, hm]

theorem bayerStep_elim {matrix : List ℚ} {msize : Nat} {pal : List Color} {w : Nat}
    {p : Nat × Nat} {b o : Buffer} (h : bayerStep matrix msize pal w p b = some o) :
    ∃ c t nc qe, readColor b (baseIdx w p) = some c ∧
      matrix[(p.2 % msize) * msize + (p.1 % msize)]? = some t ∧
      map_to_palette ⟨bayerChannel c.r t, bayerChannel c.g t, bayerChannel c.b t⟩ pal
        = some (nc, qe) ∧
      o = writeColor b (baseIdx w p) nc := by
  unfold bayerStep at h
  cases hr : readColor b (baseIdx w p) with
  | none => simp only [hr] at h; exact Option.noConfusion h
  | some c =>
    simp only [hr] at h
    cases ht : matrix[(p.2 % msize) * msize + (p.1 % msize)]? with
    | none => simp only [ht] at h; exact Option.noConfusion h
    | some t =>
      simp only [ht] at h
      cases hm : map_to_palette
          ⟨bayerChannel c.r t, bayerChannel c.g t, bayerChannel c.b t⟩ pal with
      | none => simp only [hm] at h; exact Option.noConfusion h
      | some v =>
        obtain ⟨nc, qe⟩ := v
        simp only [hm] at h
        exact ⟨c, t, nc, qe, rfl, rfl, hm, (Option.some.inj h).symm⟩

/-- Post-conditions of a successful Bayer pixel step. -/
theorem bayerStep_post {matrix : List ℚ} {msize : Nat} {pal : List Color} {w : Nat}
    {p : Nat × Nat} {b o : Buffer} (h : bayerStep matrix msize pal w p b = some o) :
    o.length = b.length ∧ (∀ j, j < baseIdx w p → o[j]? = b[j]?) ∧
      ∃ c, c ∈ pal ∧ o[baseIdx w p]? = some c.r ∧ o[baseIdx w p + 1]? = some c.g ∧
        o[baseIdx w p + 2]? = some c.b := by
  obtain ⟨c, t, nc, qe, hrc, ht, hm, rfl⟩ := bayerStep_elim h
  have hbound := bound_of_readColor hrc
  obtain ⟨h0, h1, h2⟩ := writeColor_getElem?_self (c := nc) hbound
  exact ⟨length_writeColor _ _ _,
    fun j hj => writeColor_getElem?_ne (by omega) (by omega) (by omega),
    nc, (map_to_palette_mem hm).1, h0, h1, h2⟩

/-- A Bayer pixel step succeeds on a buffer covering the pixel, for a
square threshold matrix of positive side. -/
theorem bayerStep_ok {matrix : List ℚ} {msize : Nat} {pal : List Color} {w : Nat}
    (hne : pal ≠ []) (hmat : matrix.length = msize * msize) (hm0 : 0 < msize)
    {p : Nat × Nat} {b : Buffer} (hbound : baseIdx w p + 2 < b.length) :
    ∃ o, bayerStep matrix msize pal w p b = some o := by
  obtain ⟨c, hrc, -, -, -⟩ := readColor_eq_some hbound
  have hidx : (p.2 % msize) * msize + (p.1 % msize) < matrix.length := by
    rw [hmat]
    exact cellIdx_lt (Nat.mod_lt _ hm0) (Nat.mod_lt _ hm0)
  obtain ⟨t, ht⟩ : ∃ t, matrix[(p.2 % msize) * msize + (p.1 % msize)]? = some t := by
    rw [List.getElem?_eq_getElem hidx]
    exact ⟨_, rfl⟩
  obtain ⟨nc, qe, hm, -⟩ := map_to_palette_isSome
    ⟨bayerChannel c.r t, bayerChannel c.g t, bayerChannel c.b t⟩ pal hne
  refine ⟨writeColor b (baseIdx w p) nc, ?_⟩
  unfold bayerStep
  simp only [hrc, ht, hm]

/-- A diffusion pixel step on a buffer of exactly the image size: succeeds,
preserves the length, leaves bytes below the pixel untouched, and leaves
the pixel holding a palette color. -/
theorem diffusionStep_full {kernel : List ℚ} {kw kh xoff : Nat} {pal : List Color}
    {w hgt : Nat}
    (hlen : kernel.length = kw * kh) (hfwd : RasterForward kernel kw kh xoff)
    (hne : pal ≠ []) {p : Nat × Nat} (hp1 : p.1 < w) (hp2 : p.2 < hgt)
    (b : Buffer) (hb : b.length = w * hgt * 3) :
    ∃ o, diffusionStep kernel kw kh xoff pal w hgt p b = some o ∧
      o.length = b.length ∧ (∀ j, j < baseIdx w p → o[j]? = b[j]?) ∧
      ∃ c, c ∈ pal ∧ o[baseIdx w p]? = some c.r ∧ o[baseIdx w p + 1]? = some c.g ∧
        o[baseIdx w p + 2]? = some c.b := by
  have hbound : baseIdx w p + 2 < b.length := by
    have := rasterIdx_lt hp1 hp2
    simp only [baseIdx] at *
    omega
  obtain ⟨c, hrc, -, -, -⟩ := readColor_eq_some hbound
  obtain ⟨nc, qe, hm, hncmem⟩ := map_to_palette_isSome c pal hne
  obtain ⟨o, hfold, holen, hopres⟩ :=
    diffuseCells_fold p.2 qe hlen hfwd hp1
      (gridList kw kh)
      (fun cl hcl => by
        obtain ⟨a, d⟩ := cl
        exact mem_gridList.mp hcl)
      (writeColor b (baseIdx w p) nc)
      (by rw [length_writeColor]; exact hb)
  have hbase : baseIdx w p = (p.2 * w + p.1) * 3 := rfl
  refine ⟨o, ?_, ?_, ?_, ?_⟩
  · unfold diffusionStep
    simp only [hrc, hm]
    exact hfold
  · rw [holen, length_writeColor]
  · intro j hj
    rw [hopres j (by omega)]
    exact writeColor_getElem?_ne (by omega) (by omega) (by omega)
  · obtain ⟨h0, h1, h2⟩ := writeColor_getElem?_self (c := nc) hbound
    refine ⟨nc, hncmem, ?_, ?_, ?_⟩
    · rw [hopres _ (by omega)]
      exact h0
    · rw [hopres _ (by omega)]
      exact h1
    · rw [hopres _ (by omega)]
      exact h2

/-! ### Engine-level runs -/

theorem paletteSlice_ne_nil (cp : ColorPalette) : paletteSlice cp ≠ [] := by
  cases cp <;> simp [paletteSlice, PALETTE_MONOCHROME, PALETTE_8C, PALETTE_16C]

theorem baseIdx_bound {w hgt : Nat} {p : Nat × Nat} (hp1 : p.1 < w) (hp2 : p.2 < hgt) :
    baseIdx w p + 2 < w * hgt * 3 := by
  have := rasterIdx_lt hp1 hp2
  simp only [baseIdx]
  omega

theorem none_engine_run {pal : List Color} {w hgt : Nat} (hne : pal ≠ [])
    (buf : Buffer) (hlen : buf.length = w * hgt * 3) :
    ∃ out, scanSteps (noneStep pal w) (gridList w hgt) buf = some out ∧
      out.length = buf.length ∧
      ∀ p ∈ gridList w hgt, ∃ c, c ∈ pal ∧ out[baseIdx w p]? = some c.r ∧
        out[baseIdx w p + 1]? = some c.g ∧ out[baseIdx w p + 2]? = some c.b := by
  have hbounds : ∀ p ∈ gridList w hgt, baseIdx w p + 2 < w * hgt * 3 := by
    intro p hp
    obtain ⟨a, b⟩ := p
    obtain ⟨h1, h2⟩ := mem_gridList.mp hp
    exact baseIdx_bound h1 h2
  obtain ⟨out, hout, houtlen⟩ :=
    scanSteps_ok (w * hgt * 3) (gridList w hgt) buf
      (fun p hp b hb => by
        obtain ⟨o, ho⟩ := noneStep_ok hne (b := b) (by rw [hb]; exact hbounds p hp)
        exact ⟨o, ho, by rw [(noneStep_post ho).1, hb]⟩)
      hlen
  refine ⟨out, hout, by omega, ?_⟩
  exact scanSteps_palette (w * hgt * 3) hout hlen (pairwise_gridList w hgt)
    (fun p hp b o hb ho =>
      ⟨by rw [(noneStep_post ho).1, hb], (noneStep_post ho).2.1, (noneStep_post ho).2.2⟩)

theorem bayer_engine_run (matrix : List ℚ) (msize : Nat) {pal : List Color}
    {w hgt : Nat} (hne : pal ≠ []) (hmat : matrix.length = msize * msize)
    (hm0 : 0 < msize) (buf : Buffer) (hlen : buf.length = w * hgt * 3) :
    ∃ out, scanSteps (bayerStep matrix msize pal w) (gridList w hgt) buf = some out ∧
      out.length = buf.length ∧
      ∀ p ∈ gridList w hgt, ∃ c, c ∈ pal ∧ out[baseIdx w p]? = some c.r ∧
        out[baseIdx w p + 1]? = some c.g ∧ out[baseIdx w p + 2]? = some c.b := by
  have hbounds : ∀ p ∈ gridList w hgt, baseIdx w p + 2 < w * hgt * 3 := by
    intro p hp
    obtain ⟨a, b⟩ := p
    obtain ⟨h1, h2⟩ := mem_gridList.mp hp
    exact baseIdx_bound h1 h2
  obtain ⟨out, hout, houtlen⟩ :=
    scanSteps_ok (w * hgt * 3) (gridList w hgt) buf
      (fun p hp b hb => by
        obtain ⟨o, ho⟩ := bayerStep_ok hne hmat hm0 (b := b)
          (by rw [hb]; exact hbounds p hp)
        exact ⟨o, ho, by rw [(bayerStep_post ho).1, hb]⟩)
      hlen
  refine ⟨out, hout, by omega, ?_⟩
  exact scanSteps_palette (w * hgt * 3) hout hlen (pairwise_gridList w hgt)
    (fun p hp b o hb ho =>
      ⟨by rw [(bayerStep_post ho).1, hb], (bayerStep_post ho).2.1, (bayerStep_post ho).2.2⟩)

theorem diffusion_engine_run {kernel : List ℚ} {kw kh xoff : Nat} {pal : List Color}
    {w hgt : Nat} (hne : pal ≠ [])
    (hklen : kernel.length = kw * kh) (hfwd : RasterForward kernel kw kh xoff)
    (buf : Buffer) (hlen : buf.length = w * hgt * 3) :
    ∃ out, scanSteps (diffusionStep kernel kw kh xoff pal w hgt) (gridList w hgt) buf
        = some out ∧
      out.length = buf.length ∧
      ∀ p ∈ gridList w hgt, ∃ c, c ∈ pal ∧ out[baseIdx w p]? = some c.r ∧
        out[baseIdx w p + 1]? = some c.g ∧ out[baseIdx w p + 2]? = some c.b := by
  have hmem : ∀ p, p ∈ gridList w hgt → p.1 < w ∧ p.2 < hgt := by
    intro p hp
    obtain ⟨a, b⟩ := p
    exact mem_gridList.mp hp
  obtain ⟨out, hout, houtlen⟩ :=
    scanSteps_ok (w * hgt * 3) (gridList w hgt) buf
      (fun p hp b hb => by
        obtain ⟨o, ho, holen, -, -⟩ := diffusionStep_full hklen hfwd hne
          (hmem p hp).1 (hmem p hp).2 b hb
        exact ⟨o, ho, by rw [holen, hb]⟩)
      hlen
  refine ⟨out, hout, by omega, ?_⟩
  exact scanSteps_palette (w * hgt * 3) hout hlen (pairwise_gridList w hgt)
    (fun p hp b o hb ho => by
      obtain ⟨o2, ho2, ho2len, ho2pres, ho2sets⟩ := diffusionStep_full hklen hfwd hne
        (hmem p hp).1 (hmem p hp).2 b hb
      rw [ho] at ho2
      obtain rfl : o = o2 := Option.some.inj ho2
      exact ⟨by rw [ho2len, hb], ho2pres, ho2sets⟩)

/-- Running `dither` on a buffer of exactly `width * height * 3` bytes:
it succeeds for every method and palette, preserves the length, and every
pixel of the result holds a palette color. -/
theorem dither_run (m : DitherMethod) (cp : ColorPalette) (w hgt : Nat)
    (buf : Buffer) (hlen : buf.length = w * hgt * 3) :
    ∃ out, dither buf m cp w hgt = some out ∧ out.length = buf.length ∧
      ∀ p ∈ gridList w hgt, ∃ c, c ∈ paletteSlice cp ∧
        out[baseIdx w p]? = some c.r ∧ out[baseIdx w p + 1]? = some c.g ∧
        out[baseIdx w p + 2]? = some c.b := by
  have hne := paletteSlice_ne_nil cp
  cases m with
  | None =>
    exact none_engine_run hne buf hlen
  | Bayer2x2 =>
    obtain ⟨out, h1, h2, h3⟩ := bayer_engine_run BAYER2X2 2
      hne (by decide) (by decide) buf hlen
    exact ⟨out, h1, h2, h3⟩
  | Bayer4x4 =>
    obtain ⟨out, h1, h2, h3⟩ := bayer_engine_run BAYER4X4 4
      hne (by decide) (by decide) buf hlen
    exact ⟨out, h1, h2, h3⟩
  | Bayer8x8 =>
    obtain ⟨out, h1, h2, h3⟩ := bayer_engine_run BAYER8X8 8
      hne (by decide) (by decide) buf hlen
    exact ⟨out, h1, h2, h3⟩
  | FloydSteinberg =>
    obtain ⟨hk1, hk2, -⟩ := kernelParams_facts (m := .FloydSteinberg) rfl
    exact diffusion_engine_run hne hk1 hk2 buf hlen
  | Simple2D =>
    obtain ⟨hk1, hk2, -⟩ := kernelParams_facts (m := .Simple2D) rfl
    exact diffusion_engine_run hne hk1 hk2 buf hlen
  | Jarvis =>
    obtain ⟨hk1, hk2, -⟩ := kernelParams_facts (m := .Jarvis) rfl
    exact diffusion_engine_run hne hk1 hk2 buf hlen
  | Atkinson =>
    obtain ⟨hk1, hk2, -⟩ := kernelParams_facts (m := .Atkinson) rfl
    exact diffusion_engine_run hne hk1 hk2 buf hlen
  | Stucki =>
    obtain ⟨hk1, hk2, -⟩ := kernelParams_facts (m := .Stucki) rfl
    exact diffusion_engine_run hne hk1 hk2 buf hlen
  | Burkes =>
    obtain ⟨hk1, hk2, -⟩ := kernelParams_facts (m := .Burkes) rfl
    exact diffusion_engine_run hne hk1 hk2 buf hlen
  | Sierra =>
    obtain ⟨hk1, hk2, -⟩ := kernelParams_facts (m := .Sierra) rfl
    exact diffusion_engine_run hne hk1 hk2 buf hlen
  | TwoRowSierra =>
    obtain ⟨hk1, hk2, -⟩ := kernelParams_facts (m := .TwoRowSierra) rfl
    exact diffusion_engine_run hne hk1 hk2 buf hlen
  | SierraLite =>
    obtain ⟨hk1, hk2, -⟩ := kernelParams_facts (m := .SierraLite) rfl
    exact diffusion_engine_run hne hk1 hk2 buf hlen

/-! ### Further helper lemmas -/

theorem bayerParams_facts {m : DitherMethod} {matrix : List ℚ} {msize : Nat}
    (h : bayerParams m = some (matrix, msize)) :
    matrix.length = msize * msize ∧ 0 < msize := by
  cases m <;> simp only [bayerParams] at h <;>
    first
      | exact Option.noConfusion h
      | (simp only [Option.some.injEq, Prod.mk.injEq] at h
         obtain ⟨rfl, rfl⟩ := h
         exact ⟨by decide, by decide⟩)

theorem scanSteps_length {len : Nat} {step : Nat × Nat → Buffer → Option Buffer} :
    ∀ {ps : List (Nat × Nat)} {buf out : Buffer},
      scanSteps step ps buf = some out → buf.length = len →
      (∀ p ∈ ps, ∀ b o, b.length = len → step p b = some o → o.length = len) →
      out.length = len := by
  intro ps
  induction ps with
  | nil =>
    intro buf out hscan hlen _
    cases hscan
    exact hlen
  | cons p ps ih =>
    intro buf out hscan hlen hpre
    cases hq : step p buf with
    | none => rw [scanSteps, hq] at hscan; cases hscan
    | some b1 =>
      rw [scanSteps, hq] at hscan
      exact ih hscan (hpre p (List.mem_cons_self _ _) buf b1 hlen hq)
        (fun q hq' => hpre q (List.mem_cons_of_mem _ hq'))

theorem writeColor_self {buf : Buffer} {i : Nat} {c : Color}
    (h0 : buf[i]? = some c.r) (h1 : buf[i+1]? = some c.g) (h2 : buf[i+2]? = some c.b) :
    writeColor buf i c = buf := by
  have hb : i + 2 < buf.length := (List.getElem?_eq_some.mp h2).1
  apply List.ext_getElem?
  intro j
  by_cases hj0 : j = i
  · subst hj0
    rw [(writeColor_getElem?_self hb).1, h0]
  · by_cases hj1 : j = i + 1
    · subst hj1
      rw [(writeColor_getElem?_self hb).2.1, h1]
    · by_cases hj2 : j = i + 2
      · subst hj2
        rw [(writeColor_getElem?_self hb).2.2, h2]
      · exact writeColor_getElem?_ne hj0 hj1 hj2

theorem scanSteps_singleton (step : Nat × Nat → Buffer → Option Buffer)
    (p : Nat × Nat) (buf : Buffer) : scanSteps step [p] buf = step p buf := by
  simp only [scanSteps]
  cases step p buf <;> rfl

theorem gridList_zero_width (h : Nat) : gridList 0 h = [] := by
  induction h with
  | zero => rfl
  | succ h ih => simp [gridList, ih]

/-- Every method is a no-op on an empty pixel grid. -/
theorem dither_empty_grid {m : DitherMethod} {cp : ColorPalette} {w hgt : Nat}
    (buf : Buffer) (hg : gridList w hgt = []) : dither buf m cp w hgt = some buf := by
  cases m <;>
    simp [dither, apply_error_diffusion, apply_bayer_dithering, kernelParams,
      bayerParams, hg, scanSteps]

/-- On a 1×1 image every kernel cell is skipped: the only in-image target is
the current pixel itself, which the code skips explicitly. -/
theorem diffuseCell_oneByOne {kernel : List ℚ} {kw kh xoff : Nat}
    {qe : QuantizationError} (hlen : kernel.length = kw * kh)
    {cell : Nat × Nat} (hc1 : cell.1 < kw) (hc2 : cell.2 < kh) (b : Buffer) :
    diffuseCell kernel kw xoff 1 1 0 0 qe cell b = some b := by
  have hki : cell.2 * kw + cell.1 < kernel.length := hlen ▸ cellIdx_lt hc1 hc2
  obtain ⟨wv, hwv⟩ : ∃ wv, kernel[cell.2 * kw + cell.1]? = some wv := by
    rw [List.getElem?_eq_getElem hki]
    exact ⟨_, rfl⟩
  unfold diffuseCell
  simp only [hwv]
  by_cases hw0 : wv = 0
  · simp only [if_pos hw0]
  · simp only [if_neg hw0]
    by_cases hcur : ((0 : Nat) : Int) + cell.1 - xoff = ((0 : Nat) : Int) ∧
        ((0 : Nat) : Int) + cell.2 = ((0 : Nat) : Int)
    · simp only [if_pos hcur]
    · simp only [if_neg hcur]
      have hoob : ((0 : Nat) : Int) + cell.1 - xoff < 0 ∨
          ((1 : Nat) : Int) ≤ ((0 : Nat) : Int) + cell.1 - xoff ∨
          ((0 : Nat) : Int) + cell.2 < 0 ∨ ((1 : Nat) : Int) ≤ ((0 : Nat) : Int) + cell.2 := by
        by_contra hcon
        push_neg at hcon
        obtain ⟨a1, a2, a3, a4⟩ := hcon
        exact hcur ⟨by omega, by omega⟩
      simp only [if_pos hoob]

/-- A one-pixel `None` run quantizes the single pixel. -/
theorem dither_none_single (cp : ColorPalette) (r g b : Nat) :
    ∃ (c : Color) (qe : QuantizationError),
      map_to_palette ⟨r, g, b⟩ (paletteSlice cp) = some (c, qe) ∧
      dither [r, g, b] .None cp 1 1 = some [c.r, c.g, c.b] ∧ c ∈ paletteSlice cp := by
  obtain ⟨c, qe, hm, hcmem⟩ :=
    map_to_palette_isSome ⟨r, g, b⟩ (paletteSlice cp) (paletteSlice_ne_nil cp)
  refine ⟨c, qe, hm, ?_, hcmem⟩
  show scanSteps (noneStep (paletteSlice cp) 1) (gridList 1 1) [r, g, b]
    = some [c.r, c.g, c.b]
  rw [show gridList 1 1 = [(0, 0)] from rfl, scanSteps_singleton]
  unfold noneStep
  rw [show readColor [r, g, b] (baseIdx 1 (0, 0)) = some (⟨r, g, b⟩ : Color) from rfl]
  simp only [hm]
  rfl

/-- A one-pixel error-diffusion run quantizes the single pixel: all kernel
cells are skipped. -/
theorem dither_diffusion_single {m : DitherMethod} {kernel : List ℚ} {kw kh xoff : Nat}
    (hkp : kernelParams m = some (kernel, kw, kh, xoff))
    (hklen : kernel.length = kw * kh) (cp : ColorPalette) (r g b : Nat) :
    ∃ (c : Color) (qe : QuantizationError),
      map_to_palette ⟨r, g, b⟩ (paletteSlice cp) = some (c, qe) ∧
      dither [r, g, b] m cp 1 1 = some [c.r, c.g, c.b] ∧ c ∈ paletteSlice cp := by
  obtain ⟨c, qe, hm, hcmem⟩ :=
    map_to_palette_isSome ⟨r, g, b⟩ (paletteSlice cp) (paletteSlice_ne_nil cp)
  refine ⟨c, qe, hm, ?_, hcmem⟩
  have hd : dither [r, g, b] m cp 1 1 =
      apply_error_diffusion [r, g, b] m (paletteSlice cp) 1 1 := by
    cases m <;> first | rfl | simp [kernelParams] at hkp
  rw [hd]
  simp only [apply_error_diffusion, hkp]
  rw [show gridList 1 1 = [(0, 0)] from rfl, scanSteps_singleton]
  unfold diffusionStep
  rw [show readColor [r, g, b] (baseIdx 1 (0, 0)) = some (⟨r, g, b⟩ : Color) from rfl]
  simp only [hm]
  rw [show writeColor [r, g, b] (baseIdx 1 (0, 0)) c = [c.r, c.g, c.b] from rfl]
  apply scanSteps_id
  intro cl hcl
  obtain ⟨a, d⟩ := cl
  obtain ⟨h1, h2⟩ := mem_gridList.mp hcl
  exact diffuseCell_oneByOne hklen h1 h2 _

/-- A one-pixel Bayer run perturbs the pixel by `matrix[0]` and quantizes. -/
theorem dither_bayer_single {m : DitherMethod} {matrix : List ℚ} {msize : Nat}
    (hbp : bayerParams m = some (matrix, msize))
    {t : ℚ} (ht : matrix[(0 : Nat)]? = some t) (cp : ColorPalette) (r g b : Nat) :
    ∃ (c : Color) (qe : QuantizationError),
      map_to_palette ⟨bayerChannel r t, bayerChannel g t, bayerChannel b t⟩
        (paletteSlice cp) = some (c, qe) ∧
      dither [r, g, b] m cp 1 1 = some [c.r, c.g, c.b] ∧ c ∈ paletteSlice cp := by
  obtain ⟨c, qe, hmp, hcmem⟩ :=
    map_to_palette_isSome ⟨bayerChannel r t, bayerChannel g t, bayerChannel b t⟩
      (paletteSlice cp) (paletteSlice_ne_nil cp)
  refine ⟨c, qe, hmp, ?_, hcmem⟩
  have hd : dither [r, g, b] m cp 1 1 =
      apply_bayer_dithering [r, g, b] m (paletteSlice cp) 1 1 := by
    cases m <;> first | rfl | simp [bayerParams] at hbp
  rw [hd]
  simp only [apply_bayer_dithering, hbp]
  rw [show gridList 1 1 = [(0, 0)] from rfl, scanSteps_singleton]
  unfold bayerStep
  rw [show readColor [r, g, b] (baseIdx 1 (0, 0)) = some (⟨r, g, b⟩ : Color) from rfl]
  rw [show (((0, 0) : Nat × Nat).2 % msize) * msize + (((0, 0) : Nat × Nat).1 % msize)
      = 0 by simp]
  simp only [ht, hmp]
  rfl

/-- The engine's kernel-cell update coincides with the claim's description
of it whenever the kernel carries weight `0` at the current-pixel cell
`(x_offset, 0)`: the explicit current-pixel skip is then unobservable. -/
theorem diffuseCell_eq_spec {kernel : List ℚ} {kw kh xoff : Nat}
    (hklen : kernel.length = kw * kh) (hc0 : kernel.getD (0 * kw + xoff) 0 = 0)
    (width height cx cy : Nat) (qe : QuantizationError)
    {cell : Nat × Nat} (hc1 : cell.1 < kw) (hc2 : cell.2 < kh) (buf : Buffer) :
    diffuseCell kernel kw xoff width height cx cy qe cell buf =
      specDiffuseCell kernel kw xoff width height cx cy qe cell buf := by
  have hki : cell.2 * kw + cell.1 < kernel.length := hklen ▸ cellIdx_lt hc1 hc2
  obtain ⟨wv, hwv⟩ : ∃ wv, kernel[cell.2 * kw + cell.1]? = some wv := by
    rw [List.getElem?_eq_getElem hki]
    exact ⟨_, rfl⟩
  unfold diffuseCell specDiffuseCell
  simp only [hwv]
  by_cases hw0 : wv = 0
  · simp only [if_pos hw0]
  · simp only [if_neg hw0]
    by_cases hcur : (cx : Int) + cell.1 - xoff = (cx : Int) ∧
        (cy : Int) + cell.2 = (cy : Int)
    · exfalso
      obtain ⟨e1, e2⟩ := hcur
      have hkx : cell.1 = xoff := by omega
      have hky : cell.2 = 0 := by omega
      apply hw0
      have hgd : kernel.getD (cell.2 * kw + cell.1) 0 = wv := by
        rw [List.getD_eq_getElem?_getD, hwv]
        rfl
      rw [hky, hkx] at hgd
      rw [← hgd]
      exact hc0
    · simp only [if_neg hcur]

/-- The claim-side kernel-cell update drops out-of-image targets with no
effect, and so does the engine's. -/
theorem diffuseCell_oob_skip {kernel : List ℚ} {kw kh xoff : Nat}
    (hklen : kernel.length = kw * kh) (width height cx cy : Nat)
    (qe : QuantizationError) {cell : Nat × Nat} (hc1 : cell.1 < kw) (hc2 : cell.2 < kh)
    (buf : Buffer)
    (hoob : (cx : Int) + cell.1 - xoff < 0 ∨ (width : Int) ≤ (cx : Int) + cell.1 - xoff ∨
      (cy : Int) + cell.2 < 0 ∨ (height : Int) ≤ (cy : Int) + cell.2) :
    specDiffuseCell kernel kw xoff width height cx cy qe cell buf = some buf ∧
      diffuseCell kernel kw xoff width height cx cy qe cell buf = some buf := by
  have hki : cell.2 * kw + cell.1 < kernel.length := hklen ▸ cellIdx_lt hc1 hc2
  obtain ⟨wv, hwv⟩ : ∃ wv, kernel[cell.2 * kw + cell.1]? = some wv := by
    rw [List.getElem?_eq_getElem hki]
    exact ⟨_, rfl⟩
  unfold diffuseCell specDiffuseCell
  simp only [hwv]
  by_cases hw0 : wv = 0
  · simp only [if_pos hw0]
    exact ⟨trivial, trivial⟩
  · simp only [if_neg hw0]
    constructor
    · simp only [if_pos hoob]
    · by_cases hcur : (cx : Int) + cell.1 - xoff = (cx : Int) ∧
          (cy : Int) + cell.2 = (cy : Int)
      · simp only [if_pos hcur]
      · simp only [if_neg hcur]
        simp only [if_pos hoob]

/-- The Bayer pass is pixel-local: after a raster-ordered scan, each visited
pixel holds the claim-side per-pixel function of its value in the input
buffer, and all bytes outside the visited pixels are untouched. -/
theorem bayer_scan_local {matrix : List ℚ} {msize : Nat} {pal : List Color} {w : Nat} :
    ∀ (ps : List (Nat × Nat)) (buf out : Buffer),
      scanSteps (bayerStep matrix msize pal w) ps buf = some out →
      List.Pairwise (fun p q => rasterIdx w p < rasterIdx w q) ps →
      (∀ p ∈ ps, ∃ c nc, readColor buf (baseIdx w p) = some c ∧
        specBayerColor matrix msize pal p.1 p.2 c = some nc ∧
        readColor out (baseIdx w p) = some nc) ∧
      (∀ j, (∀ p ∈ ps, j < baseIdx w p ∨ baseIdx w p + 3 ≤ j) → out[j]? = buf[j]?) := by
  intro ps
  induction ps with
  | nil =>
    rintro buf out h -
    cases h
    exact ⟨fun p hp => absurd hp (List.not_mem_nil p), fun j _ => rfl⟩
  | cons q ps ih =>
    intro buf out hscan hpw
    cases hq : bayerStep matrix msize pal w q buf with
    | none => rw [scanSteps, hq] at hscan; cases hscan
    | some b1 =>
      rw [scanSteps, hq] at hscan
      obtain ⟨hqfirst, hpw'⟩ := List.pairwise_cons.mp hpw
      obtain ⟨hmem, hpres⟩ := ih b1 out hscan hpw'
      obtain ⟨c, t, nc, qe, hrc, ht, hmp, rfl⟩ := bayerStep_elim hq
      have hbound := bound_of_readColor hrc
      constructor
      · intro p hp
        rcases List.mem_cons.mp hp with rfl | hp'
        · refine ⟨c, nc, hrc, ?_, ?_⟩
          · unfold specBayerColor
            simp only [ht, hmp]
          · obtain ⟨h0, h1, h2⟩ := writeColor_getElem?_self (c := nc) hbound
            have hlater : ∀ k, k < 3 → ∀ r ∈ ps,
                baseIdx w p + k < baseIdx w r ∨ baseIdx w r + 3 ≤ baseIdx w p + k := by
              intro k hk r hr
              left
              have := hqfirst r hr
              simp only [baseIdx] at *
              omega
            have hj0 : out[baseIdx w p]? =
                (writeColor buf (baseIdx w p) nc)[baseIdx w p]? := by
              simpa using hpres (baseIdx w p + 0) (hlater 0 (by omega))
            have hj1 : out[baseIdx w p + 1]? =
                (writeColor buf (baseIdx w p) nc)[baseIdx w p + 1]? :=
              hpres _ (hlater 1 (by omega))
            have hj2 : out[baseIdx w p + 2]? =
                (writeColor buf (baseIdx w p) nc)[baseIdx w p + 2]? :=
              hpres _ (hlater 2 (by omega))
            unfold readColor
            rw [hj0, hj1, hj2, h0, h1, h2]
        · obtain ⟨c', nc', hrc', hspec', hout'⟩ := hmem p hp'
          refine ⟨c', nc', ?_, hspec', hout'⟩
          rw [← hrc']
          apply (readColor_congr ?_ ?_ ?_).symm
          all_goals
            apply writeColor_getElem?_ne <;>
              (have hqf := hqfirst p hp'
               simp only [baseIdx] at *
               omega)
      · intro j hj
        have h1 : out[j]? = (writeColor buf (baseIdx w q) nc)[j]? :=
          hpres j (fun r hr => hj r (List.mem_cons_of_mem _ hr))
        have h2 : (writeColor buf (baseIdx w q) nc)[j]? = buf[j]? := by
          rcases hj q (List.mem_cons_self _ _) with hlt | hge
          · exact writeColor_getElem?_ne (by omega) (by omega) (by omega)
          · exact writeColor_getElem?_ne (by omega) (by omega) (by omega)
        exact h1.trans h2

/-! ## Claim theorems -/

/-- C1: for every dithering method, every palette selector, and every
buffer with `length = width * height * 3`, `dither` succeeds in place
(`some`, same length) and afterwards every pixel's RGB triple exactly
equals one of the entries of the selected palette's constant table. -/
theorem C1_dither_length_and_palette (m : DitherMethod) (cp : ColorPalette)
    (w hgt : Nat) (buf : Buffer) (hlen : buf.length = w * hgt * 3) :
    ∃ out, dither buf m cp w hgt = some out ∧ out.length = buf.length ∧
      ∀ x y, x < w → y < hgt →
        ∃ c, c ∈ paletteSlice cp ∧ readColor out (baseIdx w (x, y)) = some c := by
  obtain ⟨out, h1, h2, h3⟩ := dither_run m cp w hgt buf hlen
  refine ⟨out, h1, h2, ?_⟩
  intro x y hx hy
  obtain ⟨c, hc, e0, e1, e2⟩ := h3 (x, y) (mem_gridList.mpr ⟨hx, hy⟩)
  refine ⟨c, hc, ?_⟩
  unfold readColor
  rw [e0, e1, e2]

theorem C1_witness : ∃ out,
    dither [5, 5, 5] .None .Monochrome 1 1 = some out ∧ out.length = 3 ∧
      ∀ x y, x < 1 → y < 1 →
        ∃ c, c ∈ paletteSlice .Monochrome ∧
          readColor out (baseIdx 1 (x, y)) = some c :=
  C1_dither_length_and_palette .None .Monochrome 1 1 [5, 5, 5] (by decide)

/-- C2: on a non-empty palette, `map_to_palette` returns the entry at the
lowest index minimizing the squared per-channel distance (equal-distance
later entries are never selected), with error `orig - chosen` per channel;
in particular a color already in the palette maps to itself (hence with
zero error). -/
theorem C2_map_first_minimizer (orig : Color) (pal : List Color) (hne : pal ≠ []) :
    ∃ (chosen : Color) (i : Nat),
      map_to_palette orig pal = some (chosen,
        ⟨(orig.r : Int) - chosen.r, (orig.g : Int) - chosen.g,
          (orig.b : Int) - chosen.b⟩) ∧
      pal[i]? = some chosen ∧
      (∀ c ∈ pal, distSq orig chosen ≤ distSq orig c) ∧
      (∀ j c, j < i → pal[j]? = some c → distSq orig chosen < distSq orig c) ∧
      (orig ∈ pal → chosen = orig) := by
  obtain ⟨chosen, i, h1, h2, h3, h4⟩ := map_to_palette_spec orig pal hne
  refine ⟨chosen, i, h1, h2, h3, h4, ?_⟩
  intro hmem
  have h0 : distSq orig chosen ≤ 0 := by simpa [distSq_self] using h3 orig hmem
  exact (eq_of_distSq_nonpos h0).symm

theorem C2_witness : ∃ (chosen : Color) (i : Nat),
    map_to_palette ⟨0, 0, 0⟩ PALETTE_MONOCHROME = some (chosen,
      ⟨((⟨0, 0, 0⟩ : Color).r : Int) - chosen.r,
        ((⟨0, 0, 0⟩ : Color).g : Int) - chosen.g,
        ((⟨0, 0, 0⟩ : Color).b : Int) - chosen.b⟩) ∧
    PALETTE_MONOCHROME[i]? = some chosen ∧
    (∀ c ∈ PALETTE_MONOCHROME, distSq ⟨0, 0, 0⟩ chosen ≤ distSq ⟨0, 0, 0⟩ c) ∧
    (∀ j c, j < i → PALETTE_MONOCHROME[j]? = some c →
      distSq ⟨0, 0, 0⟩ chosen < distSq ⟨0, 0, 0⟩ c) ∧
    ((⟨0, 0, 0⟩ : Color) ∈ PALETTE_MONOCHROME → chosen = ⟨0, 0, 0⟩) :=
  C2_map_first_minimizer ⟨0, 0, 0⟩ PALETTE_MONOCHROME (by decide)

/-- C3 counterexample: the claim's exact-arithmetic update formula
`clamp(round(current + error*weight), 0, 255)` does not describe the code.
Jarvis stores the `f32` rounding of `7/48` (just below `7/48`), so on a
quantization error of `216` (reachable: pixel `(216,0,0)` quantizes to
black under the monochrome palette) diffused over a zero byte the code
computes `31.499998 → 31`, while the claim's formula gives `31.5 → 32`. -/
theorem C3_counterexample :
    kernelParams .Jarvis = some (JARVIS, 5, 3, 2) ∧
    JARVIS[(3 : Nat)]? = some (7/48) ∧
    map_to_palette ⟨216, 0, 0⟩ PALETTE_MONOCHROME = some (⟨0, 0, 0⟩, ⟨216, 0, 0⟩) ∧
    diffuseCell JARVIS 5 2 5 1 0 0 ⟨216, 0, 0⟩ (3, 0)
        [0, 0, 0, 0, 0, 0, 0, 0, 0, 0, 0, 0, 0, 0, 0]
      = some [0, 0, 0, 31, 0, 0, 0, 0, 0, 0, 0, 0, 0, 0, 0] ∧
    clampByte (roundHalfAway ((0 : ℚ) + (216 : ℚ) * (7/48))) = 32 := by
  refine ⟨rfl, by with_unfolding_all decide, by decide, ?_, ?_⟩
  · with_unfolding_all decide
  · with_unfolding_all decide

/-- C3 (amended): for every error-diffusion method, the engine's kernel
loop for one pixel equals the claim's description of it — targets at
`(cx + kx - x_offset, cy + ky)`, in-image channels updated to
`clamp(round(value + error*weight), 0, 255)` with the weight, product and
sum in `f32` arithmetic and the rounding half away from zero, off-image
targets skipped with no effect anywhere. -/
theorem C3_diffusion_cell_spec (m : DitherMethod) (kernel : List ℚ) (kw kh xoff : Nat)
    (hkp : kernelParams m = some (kernel, kw, kh, xoff))
    (width height cx cy : Nat) (qe : QuantizationError) :
    (∀ buf, scanSteps (diffuseCell kernel kw xoff width height cx cy qe)
        (gridList kw kh) buf =
      scanSteps (specDiffuseCell kernel kw xoff width height cx cy qe)
        (gridList kw kh) buf) ∧
    (∀ cell ∈ gridList kw kh, ∀ buf : Buffer,
      ((cx : Int) + cell.1 - xoff < 0 ∨ (width : Int) ≤ (cx : Int) + cell.1 - xoff ∨
        (cy : Int) + cell.2 < 0 ∨ (height : Int) ≤ (cy : Int) + cell.2) →
      specDiffuseCell kernel kw xoff width height cx cy qe cell buf = some buf ∧
        diffuseCell kernel kw xoff width height cx cy qe cell buf = some buf) := by
  obtain ⟨hklen, -, hc0⟩ := kernelParams_facts hkp
  constructor
  · intro buf
    apply scanSteps_congr
    intro cell hcell b
    obtain ⟨a, d⟩ := cell
    obtain ⟨h1, h2⟩ := mem_gridList.mp hcell
    exact diffuseCell_eq_spec hklen hc0 width height cx cy qe h1 h2 b
  · intro cell hcell buf hoob
    obtain ⟨a, d⟩ := cell
    obtain ⟨h1, h2⟩ := mem_gridList.mp hcell
    exact diffuseCell_oob_skip hklen width height cx cy qe h1 h2 buf hoob

theorem C3_witness :
    (∀ buf, scanSteps (diffuseCell FLOYD_STEINBERG 3 1 2 2 0 0 ⟨16, -16, 8⟩)
        (gridList 3 2) buf =
      scanSteps (specDiffuseCell FLOYD_STEINBERG 3 1 2 2 0 0 ⟨16, -16, 8⟩)
        (gridList 3 2) buf) ∧
    (∀ cell ∈ gridList 3 2, ∀ buf : Buffer,
      (((0 : Nat) : Int) + cell.1 - 1 < 0 ∨ ((2 : Nat) : Int) ≤ ((0 : Nat) : Int) + cell.1 - 1 ∨
        ((0 : Nat) : Int) + cell.2 < 0 ∨ ((2 : Nat) : Int) ≤ ((0 : Nat) : Int) + cell.2) →
      specDiffuseCell FLOYD_STEINBERG 3 1 2 2 0 0 ⟨16, -16, 8⟩ cell buf = some buf ∧
        diffuseCell FLOYD_STEINBERG 3 1 2 2 0 0 ⟨16, -16, 8⟩ cell buf = some buf) :=
  C3_diffusion_cell_spec .FloydSteinberg FLOYD_STEINBERG 3 2 1 rfl 2 2 0 0 ⟨16, -16, 8⟩

/-- C4 counterexample: the claim's exact-arithmetic perturbation
`clamp01(ch/255 + t - 0.5) * 255` truncated does not describe the code.
At threshold `1/2` (present in all three Bayer matrices) the `f32`
round-trip `128/255 + 0.5 - 0.5` loses the low bit, so channel `128`
becomes `127` in the code where the exact formula gives `128` — flipping
the monochrome output of that pixel from white (what the claim's formula
would produce) to black. -/
theorem C4_counterexample :
    BAYER2X2[(1 : Nat)]? = some (2/4) ∧
    bayerChannel 128 (2/4) = 127 ∧
    ((max 0 (min 1 ((128 : ℚ) / 255 + 2/4 - 1/2))) * 255).floor.toNat = 128 ∧
    map_to_palette ⟨128, 128, 128⟩ PALETTE_MONOCHROME
      = some (⟨255, 255, 255⟩, ⟨-127, -127, -127⟩) ∧
    dither [0, 0, 0, 128, 128, 128] .Bayer2x2 .Monochrome 2 1
      = some [0, 0, 0, 0, 0, 0] := by
  refine ⟨by with_unfolding_all decide, ?_, ?_, by decide, ?_⟩
  · with_unfolding_all decide
  · with_unfolding_all decide
  · with_unfolding_all decide

/-- C4 (amended): for every Bayer method, the ordered-dithering pass is
pixelwise: each visited pixel of the output is the claim-side per-pixel
function (threshold from the tiled matrix, the perturbation formula with
each arithmetic step in `f32`, map, error discarded) of that pixel's value
in the *input* buffer — no propagation — and bytes outside the visited
pixels are untouched. -/
theorem C4_bayer_pixelwise (m : DitherMethod) (matrix : List ℚ) (msize : Nat)
    (hbp : bayerParams m = some (matrix, msize)) (pal : List Color) (w hgt : Nat)
    (hne : pal ≠ []) (buf : Buffer) (hlen : buf.length = w * hgt * 3) :
    ∃ out, apply_bayer_dithering buf m pal w hgt = some out ∧
      (∀ p ∈ gridList w hgt, ∃ c nc, readColor buf (baseIdx w p) = some c ∧
        specBayerColor matrix msize pal p.1 p.2 c = some nc ∧
        readColor out (baseIdx w p) = some nc) ∧
      (∀ j, (∀ p ∈ gridList w hgt, j < baseIdx w p ∨ baseIdx w p + 3 ≤ j) →
        out[j]? = buf[j]?) := by
  obtain ⟨f1, f2⟩ := bayerParams_facts hbp
  obtain ⟨out, hout, -, -⟩ := bayer_engine_run matrix msize hne f1 f2 buf hlen
  have hd : apply_bayer_dithering buf m pal w hgt =
      scanSteps (bayerStep matrix msize pal w) (gridList w hgt) buf := by
    simp only [apply_bayer_dithering, hbp]
  obtain ⟨hmem2, hpres⟩ :=
    bayer_scan_local (gridList w hgt) buf out hout (pairwise_gridList w hgt)
  exact ⟨out, hd.trans hout, hmem2, hpres⟩

theorem C4_witness : ∃ out,
    apply_bayer_dithering [128, 128, 128] .Bayer2x2 PALETTE_MONOCHROME 1 1 = some out ∧
      (∀ p ∈ gridList 1 1, ∃ c nc, readColor [128, 128, 128] (baseIdx 1 p) = some c ∧
        specBayerColor BAYER2X2 2 PALETTE_MONOCHROME p.1 p.2 c = some nc ∧
        readColor out (baseIdx 1 p) = some nc) ∧
      (∀ j, (∀ p ∈ gridList 1 1, j < baseIdx 1 p ∨ baseIdx 1 p + 3 ≤ j) →
        out[j]? = [128, 128, 128][j]?) :=
  C4_bayer_pixelwise .Bayer2x2 BAYER2X2 2 rfl PALETTE_MONOCHROME 1 1
    (by decide) [128, 128, 128] (by decide)

/-- C5: the engine's constant tables equal the section-6 external contract:
every error-diffusion method's (kernel, width, height, x-offset) quadruple
matches the stated row-major weight table, and the Bayer threshold
matrices are the recursive Bayer construction over 4, 16, 64. -/
theorem C5_constant_tables :
    (∀ m, kernelParams m = specKernelParams m) ∧
    BAYER2X2 = (bayerRec 1).flatten.map (fun v => (v : ℚ) / 4) ∧
    BAYER4X4 = (bayerRec 2).flatten.map (fun v => (v : ℚ) / 16) ∧
    BAYER8X8 = (bayerRec 3).flatten.map (fun v => (v : ℚ) / 64) := by
  refine ⟨fun m => ?_, ?_, ?_, ?_⟩
  · cases m <;> with_unfolding_all decide
  · with_unfolding_all decide
  · with_unfolding_all decide
  · with_unfolding_all decide

/-- C6: for every error-diffusion method, (a) every non-zero kernel weight
targets a pixel strictly later in raster order (target raster index exceeds
the current one whenever the target is in-image), and consequently (b) in
a full scan, once a pixel has been processed its three bytes never change
again: the final buffer agrees with the buffer right after that pixel's
step. -/
theorem C6_raster_forward_stability (m : DitherMethod) (kernel : List ℚ)
    (kw kh xoff : Nat) (hkp : kernelParams m = some (kernel, kw, kh, xoff)) :
    (∀ ky, ky < kh → ∀ kx, kx < kw → kernel.getD (ky * kw + kx) 0 ≠ 0 →
      ∀ w hgt cx cy : Nat, cx < w →
        0 ≤ (cx : Int) + kx - xoff → (cx : Int) + kx - xoff < (w : Int) →
        (cy : Int) + ky < (hgt : Int) →
        cy * w + cx < ((cy : Int) + ky).toNat * w + ((cx : Int) + kx - xoff).toNat) ∧
    (∀ (pal : List Color) (w hgt : Nat), pal ≠ [] →
      ∀ (buf mid mid2 out : Buffer) (l1 l2 : List (Nat × Nat)) (p : Nat × Nat),
        gridList w hgt = l1 ++ p :: l2 → buf.length = w * hgt * 3 →
        scanSteps (diffusionStep kernel kw kh xoff pal w hgt) l1 buf = some mid →
        diffusionStep kernel kw kh xoff pal w hgt p mid = some mid2 →
        scanSteps (diffusionStep kernel kw kh xoff pal w hgt) (gridList w hgt) buf
          = some out →
        out[baseIdx w p]? = mid2[baseIdx w p]? ∧
        out[baseIdx w p + 1]? = mid2[baseIdx w p + 1]? ∧
        out[baseIdx w p + 2]? = mid2[baseIdx w p + 2]?) := by
  obtain ⟨hklen, hfwd, -⟩ := kernelParams_facts hkp
  constructor
  · intro ky hky kx hkx hnz w hgt cx cy hcx hn1 hn2 hn3
    exact (target_raster_facts hcx (hfwd ky hky kx hkx hnz) hn1 hn2 hn3).1
  · intro pal w hgt hne buf mid mid2 out l1 l2 p hsplit hblen hl1 hstep hall
    have hstepfacts : ∀ q ∈ gridList w hgt, ∀ b o : Buffer, b.length = w * hgt * 3 →
        diffusionStep kernel kw kh xoff pal w hgt q b = some o →
        o.length = w * hgt * 3 ∧ ∀ j, j < baseIdx w q → o[j]? = b[j]? := by
      intro q hq b o hb ho
      obtain ⟨a, d⟩ := q
      obtain ⟨hq1, hq2⟩ := mem_gridList.mp hq
      obtain ⟨o2, ho2, ho2len, ho2pres, -⟩ :=
        diffusionStep_full (p := (a, d)) hklen hfwd hne hq1 hq2 b hb
      rw [ho] at ho2
      obtain rfl : o = o2 := Option.some.inj ho2
      exact ⟨by rw [ho2len, hb], ho2pres⟩
    have hpmem : p ∈ gridList w hgt := by
      rw [hsplit]
      exact List.mem_append.mpr (Or.inr (List.mem_cons_self _ _))
    have hl1mem : ∀ q ∈ l1, q ∈ gridList w hgt := by
      intro q hq
      rw [hsplit]
      exact List.mem_append.mpr (Or.inl hq)
    have hl2mem : ∀ q ∈ l2, q ∈ gridList w hgt := by
      intro q hq
      rw [hsplit]
      exact List.mem_append.mpr (Or.inr (List.mem_cons_of_mem _ hq))
    have hmidlen : mid.length = w * hgt * 3 :=
      scanSteps_length hl1 hblen
        (fun q hq b o hb ho => (hstepfacts q (hl1mem q hq) b o hb ho).1)
    have hmid2len : mid2.length = w * hgt * 3 :=
      (hstepfacts p hpmem mid mid2 hmidlen hstep).1
    rw [hsplit, scanSteps_append] at hall
    simp only [hl1] at hall
    simp only [scanSteps, hstep] at hall
    have hpw := pairwise_gridList w hgt
    rw [hsplit] at hpw
    have hpl2 : ∀ r ∈ l2, rasterIdx w p < rasterIdx w r := by
      have hc := (List.pairwise_append.mp hpw).2.1
      exact (List.pairwise_cons.mp hc).1
    have hstab : ∀ j, (∀ r ∈ l2, j < baseIdx w r) → out[j]? = mid2[j]? :=
      scanSteps_stable hall hmid2len (fun r hr => hstepfacts r (hl2mem r hr))
    have hb3 : ∀ k, k < 3 → ∀ r ∈ l2, baseIdx w p + k < baseIdx w r := by
      intro k hk r hr
      have := hpl2 r hr
      simp only [baseIdx] at *
      omega
    refine ⟨?_, ?_, ?_⟩
    · simpa using hstab (baseIdx w p + 0) (hb3 0 (by omega))
    · exact hstab _ (hb3 1 (by omega))
    · exact hstab _ (hb3 2 (by omega))

theorem C6_witness :
    (∀ ky, ky < 2 → ∀ kx, kx < 3 → FLOYD_STEINBERG.getD (ky * 3 + kx) 0 ≠ 0 →
      ∀ w hgt cx cy : Nat, cx < w →
        0 ≤ (cx : Int) + kx - 1 → (cx : Int) + kx - 1 < (w : Int) →
        (cy : Int) + ky < (hgt : Int) →
        cy * w + cx < ((cy : Int) + ky).toNat * w + ((cx : Int) + kx - 1).toNat) ∧
    (∀ (pal : List Color) (w hgt : Nat), pal ≠ [] →
      ∀ (buf mid mid2 out : Buffer) (l1 l2 : List (Nat × Nat)) (p : Nat × Nat),
        gridList w hgt = l1 ++ p :: l2 → buf.length = w * hgt * 3 →
        scanSteps (diffusionStep FLOYD_STEINBERG 3 2 1 pal w hgt) l1 buf = some mid →
        diffusionStep FLOYD_STEINBERG 3 2 1 pal w hgt p mid = some mid2 →
        scanSteps (diffusionStep FLOYD_STEINBERG 3 2 1 pal w hgt) (gridList w hgt) buf
          = some out →
        out[baseIdx w p]? = mid2[baseIdx w p]? ∧
        out[baseIdx w p + 1]? = mid2[baseIdx w p + 1]? ∧
        out[baseIdx w p + 2]? = mid2[baseIdx w p + 2]?) :=
  C6_raster_forward_stability .FloydSteinberg FLOYD_STEINBERG 3 2 1 rfl

/-- C7: a buffer produced by a `None` pass is a fixed point of the `None`
pass (same palette and dimensions): the mapper maps each of its own output
colors back to itself, so a second pass changes no byte. -/
theorem C7_none_idempotent {cp : ColorPalette} {w hgt : Nat} {buf out : Buffer}
    (h : dither buf .None cp w hgt = some out) :
    dither out .None cp w hgt = some out := by
  have hscan : scanSteps (noneStep (paletteSlice cp) w) (gridList w hgt) buf
      = some out := h
  have hpal : ∀ p ∈ gridList w hgt, ∃ c, c ∈ paletteSlice cp ∧
      out[baseIdx w p]? = some c.r ∧ out[baseIdx w p + 1]? = some c.g ∧
      out[baseIdx w p + 2]? = some c.b := by
    refine scanSteps_palette buf.length hscan rfl (pairwise_gridList w hgt) ?_
    intro p hp b o hb ho
    exact ⟨by rw [(noneStep_post ho).1, hb], (noneStep_post ho).2.1,
      (noneStep_post ho).2.2⟩
  show scanSteps (noneStep (paletteSlice cp) w) (gridList w hgt) out = some out
  apply scanSteps_id
  intro p hp
  obtain ⟨c, hcmem, h0, h1, h2⟩ := hpal p hp
  have hrc : readColor out (baseIdx w p) = some c := by
    unfold readColor
    rw [h0, h1, h2]
  unfold noneStep
  simp only [hrc, map_to_palette_self hcmem]
  rw [writeColor_self h0 h1 h2]

theorem C7_witness :
    dither [255, 255, 255, 0, 0, 0] .None .Monochrome 2 1
      = some [255, 255, 255, 0, 0, 0] :=
  C7_none_idempotent (show dither [128, 128, 128, 64, 64, 64] .None .Monochrome 2 1
    = some [255, 255, 255, 0, 0, 0] by decide)

/-- C8: the concrete two-pixel scenario: gray 128 and gray 64 under method
`None` with the monochrome palette become white then black, and indeed 128
is strictly closer to 255 and 64 strictly closer to 0 under the squared
distance. -/
theorem C8_two_pixel_scenario :
    dither [128, 128, 128, 64, 64, 64] .None .Monochrome 2 1
      = some [255, 255, 255, 0, 0, 0] ∧
    distSq ⟨128, 128, 128⟩ ⟨255, 255, 255⟩ < distSq ⟨128, 128, 128⟩ ⟨0, 0, 0⟩ ∧
    distSq ⟨64, 64, 64⟩ ⟨0, 0, 0⟩ < distSq ⟨64, 64, 64⟩ ⟨255, 255, 255⟩ := by
  exact ⟨by decide, by decide, by decide⟩

/-- C9 counterexample: on a 1×1 gray image the Bayer2x2 method does not
"simply quantize" the single pixel: plain quantization of (128,128,128)
against the monochrome palette yields white, but the Bayer2x2 pass yields
black (the `matrix[0] = 0` threshold perturbs the pixel before mapping). -/
theorem C9_counterexample :
    dither [128, 128, 128] .Bayer2x2 .Monochrome 1 1 = some [0, 0, 0] ∧
    map_to_palette ⟨128, 128, 128⟩ (paletteSlice .Monochrome)
      = some (⟨255, 255, 255⟩, ⟨-127, -127, -127⟩) := by
  constructor
  · with_unfolding_all decide
  · decide

/-- C9 amended: `dither` on any 1×1 buffer `[r,g,b]` never panics for any
method and palette and writes a single palette color; for `None` and every
error-diffusion method (whose neighbor targets are all off-image and
skipped) that color is the plain quantization of the pixel, while for the
Bayer methods it is the quantization of the `matrix[0]`-thresholded pixel. -/
theorem C9_one_by_one_safe (m : DitherMethod) (cp : ColorPalette) (r g b : Nat) :
    ∃ (out : Buffer) (c : Color), dither [r, g, b] m cp 1 1 = some out ∧
      out = [c.r, c.g, c.b] ∧ c ∈ paletteSlice cp ∧
      ((m = .None ∨ kernelParams m ≠ none) →
        ∃ qe, map_to_palette ⟨r, g, b⟩ (paletteSlice cp) = some (c, qe)) ∧
      (∀ matrix msize, bayerParams m = some (matrix, msize) →
        ∃ t qe, matrix[(0 : Nat)]? = some t ∧
          map_to_palette ⟨bayerChannel r t, bayerChannel g t, bayerChannel b t⟩
            (paletteSlice cp) = some (c, qe)) := by
  cases m with
  | None =>
    obtain ⟨c, qe, hm, hd, hcmem⟩ := dither_none_single cp r g b
    exact ⟨[c.r, c.g, c.b], c, hd, rfl, hcmem, fun _ => ⟨qe, hm⟩,
      fun matrix msize hbp => by simp [bayerParams] at hbp⟩
  | FloydSteinberg =>
    obtain ⟨c, qe, hm, hd, hcmem⟩ := dither_diffusion_single (m := .FloydSteinberg) rfl
      (kernelParams_facts (m := .FloydSteinberg) rfl).1 cp r g b
    exact ⟨[c.r, c.g, c.b], c, hd, rfl, hcmem, fun _ => ⟨qe, hm⟩,
      fun matrix msize hbp => by simp [bayerParams] at hbp⟩
  | Simple2D =>
    obtain ⟨c, qe, hm, hd, hcmem⟩ := dither_diffusion_single (m := .Simple2D) rfl
      (kernelParams_facts (m := .Simple2D) rfl).1 cp r g b
    exact ⟨[c.r, c.g, c.b], c, hd, rfl, hcmem, fun _ => ⟨qe, hm⟩,
      fun matrix msize hbp => by simp [bayerParams] at hbp⟩
  | Jarvis =>
    obtain ⟨c, qe, hm, hd, hcmem⟩ := dither_diffusion_single (m := .Jarvis) rfl
      (kernelParams_facts (m := .Jarvis) rfl).1 cp r g b
    exact ⟨[c.r, c.g, c.b], c, hd, rfl, hcmem, fun _ => ⟨qe, hm⟩,
      fun matrix msize hbp => by simp [bayerParams] at hbp⟩
  | Atkinson =>
    obtain ⟨c, qe, hm, hd, hcmem⟩ := dither_diffusion_single (m := .Atkinson) rfl
      (kernelParams_facts (m := .Atkinson) rfl).1 cp r g b
    exact ⟨[c.r, c.g, c.b], c, hd, rfl, hcmem, fun _ => ⟨qe, hm⟩,
      fun matrix msize hbp => by simp [bayerParams] at hbp⟩
  | Stucki =>
    obtain ⟨c, qe, hm, hd, hcmem⟩ := dither_diffusion_single (m := .Stucki) rfl
      (kernelParams_facts (m := .Stucki) rfl).1 cp r g b
    exact ⟨[c.r, c.g, c.b], c, hd, rfl, hcmem, fun _ => ⟨qe, hm⟩,
      fun matrix msize hbp => by simp [bayerParams] at hbp⟩
  | Burkes =>
    obtain ⟨c, qe, hm, hd, hcmem⟩ := dither_diffusion_single (m := .Burkes) rfl
      (kernelParams_facts (m := .Burkes) rfl).1 cp r g b
    exact ⟨[c.r, c.g, c.b], c, hd, rfl, hcmem, fun _ => ⟨qe, hm⟩,
      fun matrix msize hbp => by simp [bayerParams] at hbp⟩
  | Sierra =>
    obtain ⟨c, qe, hm, hd, hcmem⟩ := dither_diffusion_single (m := .Sierra) rfl
      (kernelParams_facts (m := .Sierra) rfl).1 cp r g b
    exact ⟨[c.r, c.g, c.b], c, hd, rfl, hcmem, fun _ => ⟨qe, hm⟩,
      fun matrix msize hbp => by simp [bayerParams] at hbp⟩
  | TwoRowSierra =>
    obtain ⟨c, qe, hm, hd, hcmem⟩ := dither_diffusion_single (m := .TwoRowSierra) rfl
      (kernelParams_facts (m := .TwoRowSierra) rfl).1 cp r g b
    exact ⟨[c.r, c.g, c.b], c, hd, rfl, hcmem, fun _ => ⟨qe, hm⟩,
      fun matrix msize hbp => by simp [bayerParams] at hbp⟩
  | SierraLite =>
    obtain ⟨c, qe, hm, hd, hcmem⟩ := dither_diffusion_single (m := .SierraLite) rfl
      (kernelParams_facts (m := .SierraLite) rfl).1 cp r g b
    exact ⟨[c.r, c.g, c.b], c, hd, rfl, hcmem, fun _ => ⟨qe, hm⟩,
      fun matrix msize hbp => by simp [bayerParams] at hbp⟩
  | Bayer2x2 =>
    obtain ⟨c, qe, hm, hd, hcmem⟩ := dither_bayer_single (m := .Bayer2x2)
      (t := 0) rfl rfl cp r g b
    refine ⟨[c.r, c.g, c.b], c, hd, rfl, hcmem, ?_, ?_⟩
    · rintro (h | h)
      · exact DitherMethod.noConfusion h
      · exact absurd rfl h
    · intro matrix msize hbp
      simp only [bayerParams, Option.some.injEq, Prod.mk.injEq] at hbp
      obtain ⟨rfl, rfl⟩ := hbp
      exact ⟨0, qe, rfl, hm⟩
  | Bayer4x4 =>
    obtain ⟨c, qe, hm, hd, hcmem⟩ := dither_bayer_single (m := .Bayer4x4)
      (t := 0) rfl rfl cp r g b
    refine ⟨[c.r, c.g, c.b], c, hd, rfl, hcmem, ?_, ?_⟩
    · rintro (h | h)
      · exact DitherMethod.noConfusion h
      · exact absurd rfl h
    · intro matrix msize hbp
      simp only [bayerParams, Option.some.injEq, Prod.mk.injEq] at hbp
      obtain ⟨rfl, rfl⟩ := hbp
      exact ⟨0, qe, rfl, hm⟩
  | Bayer8x8 =>
    obtain ⟨c, qe, hm, hd, hcmem⟩ := dither_bayer_single (m := .Bayer8x8)
      (t := 0) rfl rfl cp r g b
    refine ⟨[c.r, c.g, c.b], c, hd, rfl, hcmem, ?_, ?_⟩
    · rintro (h | h)
      · exact DitherMethod.noConfusion h
      · exact absurd rfl h
    · intro matrix msize hbp
      simp only [bayerParams, Option.some.injEq, Prod.mk.injEq] at hbp
      obtain ⟨rfl, rfl⟩ := hbp
      exact ⟨0, qe, rfl, hm⟩

theorem C9_witness : ∃ (out : Buffer) (c : Color),
    dither [128, 128, 128] .FloydSteinberg .Monochrome 1 1 = some out ∧
      out = [c.r, c.g, c.b] ∧ c ∈ paletteSlice .Monochrome ∧
      ((DitherMethod.FloydSteinberg = .None ∨ kernelParams .FloydSteinberg ≠ none) →
        ∃ qe, map_to_palette ⟨128, 128, 128⟩ (paletteSlice .Monochrome)
          = some (c, qe)) ∧
      (∀ matrix msize, bayerParams .FloydSteinberg = some (matrix, msize) →
        ∃ t qe, matrix[(0 : Nat)]? = some t ∧
          map_to_palette
            ⟨bayerChannel 128 t, bayerChannel 128 t, bayerChannel 128 t⟩
            (paletteSlice .Monochrome) = some (c, qe)) :=
  C9_one_by_one_safe .FloydSteinberg .Monochrome 128 128 128

/-- C10 counterexample: zero width (so `width*height*3 = 0 ≠ 3`) is a
precondition violation, yet `dither` silently succeeds and returns the
buffer untouched — no failure surfaces to the caller, at the boundary or
anywhere. -/
theorem C10_counterexample :
    [1, 2, 3].length ≠ 0 * 5 * 3 ∧
      dither [1, 2, 3] .None .Monochrome 0 5 = some [1, 2, 3] := by
  constructor
  · decide
  · exact dither_empty_grid _ (gridList_zero_width 5)

/-- C10 amended: the core performs no validation of its preconditions:
zero width or zero height (a buffer-length violation whenever the buffer
is non-empty) is silently accepted as a no-op for every method and
palette — no failure surfaces to the caller — and an undersized buffer
surfaces as an index-out-of-bounds panic raised partway through pixel
processing, not at the boundary: on `[128,128,128]` with width 2, the
first pixel is quantized and overwritten before the second pixel's read
fails. -/
theorem C10_no_boundary_validation :
    (∀ (m : DitherMethod) (cp : ColorPalette) (hgt : Nat) (buf : Buffer),
      dither buf m cp 0 hgt = some buf) ∧
    (∀ (m : DitherMethod) (cp : ColorPalette) (w : Nat) (buf : Buffer),
      dither buf m cp w 0 = some buf) ∧
    gridList 2 1 = [(0, 0), (1, 0)] ∧
    noneStep (paletteSlice .Monochrome) 2 (0, 0) [128, 128, 128]
      = some [255, 255, 255] ∧
    noneStep (paletteSlice .Monochrome) 2 (1, 0) [255, 255, 255] = none ∧
    dither [128, 128, 128] .None .Monochrome 2 1 = none := by
  refine ⟨?_, ?_, by decide, by decide, by decide, by decide⟩
  · intro m cp hgt buf
    exact dither_empty_grid buf (gridList_zero_width hgt)
  · intro m cp w buf
    exact dither_empty_grid buf rfl


end Dithers
